import Mathlib

/-!
Verification of the slaist reconciliation / document-merge engine.

The program's core (in `src/app/src/main.rs`) parses a persisted markdown
document into prior todo entries plus a preserved free-text tail, merges them
with a freshly fetched todo list, and re-renders the document.  The functions
below are shallow embeddings of the Rust functions, working over Lean `String`
(a wrapper around `List Char`).  Rust `str::lines`, `trim`, `starts_with`,
`ends_with`, `trim_end_matches`, `trim_start_matches`, `split` and `u64`
parsing are modelled by the `rust*` helpers, faithful to the Rust semantics
(lines split at `'\n'`, a `'\r'` is stripped only when it precedes the
`'\n'`; trimming removes every character with the Unicode `White_Space`
property, exactly as `char::is_whitespace` does).
-/

namespace Slaist

/-- Whitespace test used by trimming: the Unicode `White_Space` property,
the exact set recognised by Rust `char::is_whitespace` (and hence by
`str::trim`): U+0009..U+000D, U+0020, U+0085, U+00A0, U+1680,
U+2000..U+200A, U+2028, U+2029, U+202F, U+205F, U+3000. -/
def wsChar (c : Char) : Bool :=
  let n := c.toNat
  n == 0x20 || (decide (0x9 ≤ n) && decide (n ≤ 0xD)) || n == 0x85 ||
  n == 0xA0 || n == 0x1680 ||
  (decide (0x2000 ≤ n) && decide (n ≤ 0x200A)) ||
  n == 0x2028 || n == 0x2029 || n == 0x202F || n == 0x205F || n == 0x3000

/-- Is the first list a prefix of the second?  (model of `str::starts_with`). -/
def isPrefixL : List Char → List Char → Bool
  | [], _ => true
  | _ :: _, [] => false
  | a :: as, b :: bs => a == b && isPrefixL as bs

/-- Is the first list a suffix of the second?  (model of `str::ends_with`). -/
def isSuffixL (p l : List Char) : Bool := isPrefixL p.reverse l.reverse

/-- Model of `str::starts_with` on strings. -/
def rustStartsWith (s p : String) : Bool := isPrefixL p.data s.data

/-- Model of `str::ends_with` on strings. -/
def rustEndsWith (s p : String) : Bool := isSuffixL p.data s.data

/-- Trim whitespace from both ends of a character list. -/
def trimL (l : List Char) : List Char :=
  ((l.dropWhile wsChar).reverse.dropWhile wsChar).reverse

/-- Model of `str::trim`. -/
def rustTrim (s : String) : String := ⟨trimL s.data⟩

/-- Drop the first `n` characters (used for the guarded slices `s[5..]`,
`s[6..]`, `s[11..]`, whose prefixes are ASCII so byte and char counts
coincide; `parse_existing_markdown_checked` models the byte-level slice). -/
def charDrop (s : String) (n : Nat) : String := ⟨s.data.drop n⟩

/-- Strip one trailing `'\r'` (applied by Rust `lines` to `'\n'`-terminated
lines only). -/
def stripCRL (l : List Char) : List Char :=
  if l.getLast? = some '\r' then l.dropLast else l

/-- Worker for `rustLines`: `acc` holds the current line reversed. -/
def linesGo : List Char → List Char → List (List Char)
  | acc, [] => if acc.isEmpty then [] else [acc.reverse]
  | acc, c :: rest =>
    if c = '\n' then stripCRL acc.reverse :: linesGo [] rest
    else linesGo (c :: acc) rest

/-- Model of `str::lines`. -/
def rustLines (s : String) : List String := (linesGo [] s.data).map (fun l => ⟨l⟩)

/-- Concatenation of a list of strings. -/
def strConcat : List String → String
  | [] => ""
  | s :: rest => s ++ strConcat rest

/-- Model of `[String]::join(sep)`. -/
def strIntercalate (sep : String) : List String → String
  | [] => ""
  | [s] => s
  | s :: rest => s ++ sep ++ strIntercalate sep rest

/-- Worker for `rustSplitChar`. -/
def splitChGo (sep : Char) : List Char → List Char → List (List Char)
  | acc, [] => [acc.reverse]
  | acc, c :: rest =>
    if c = sep then acc.reverse :: splitChGo sep [] rest
    else splitChGo sep (c :: acc) rest

/-- Model of `str::split(char)`: always returns at least one (possibly empty)
segment. -/
def rustSplitChar (s : String) (sep : Char) : List String :=
  (splitChGo sep [] s.data).map (fun l => ⟨l⟩)

/-- ASCII digit test. -/
def isDigitCh (c : Char) : Bool := decide (48 ≤ c.toNat) && decide (c.toNat ≤ 57)

/-- Accumulate the numeric value of a digit string. -/
def digitsVal : List Char → Nat → Nat
  | [], acc => acc
  | c :: rest, acc => digitsVal rest (acc * 10 + (c.toNat - 48))

/-- Model of `str::parse::<u64>()`: an optional leading `'+'`, then at least
one ASCII digit, and the value must fit in 64 bits. -/
def rustParseU64 (s : String) : Option Nat :=
  let ds := match s.data with
    | '+' :: rest => rest
    | l => l
  if ds.isEmpty then none
  else if ds.all isDigitCh then
    let v := digitsVal ds 0
    if v < 2 ^ 64 then some v else none
  else none

theorem isPrefixL_length {p l : List Char} (h : isPrefixL p l = true) :
    p.length ≤ l.length := by
  induction p generalizing l with
  | nil => simp
  | cons a as ih =>
    cases l with
    | nil => simp [isPrefixL] at h
    | cons b bs =>
      simp only [isPrefixL, Bool.and_eq_true] at h
      simpa using ih h.2

theorem isSuffixL_length {p l : List Char} (h : isSuffixL p l = true) :
    p.length ≤ l.length := by
  have := isPrefixL_length h
  simpa using this

/-- Drop a suffix of the given pattern length. -/
def dropSuffixL (l pat : List Char) : List Char := l.take (l.length - pat.length)

/-- Worker for `rustTrimEndMatches` (Rust `trim_end_matches` removes the
suffix repeatedly, as long as it matches).  The fuel argument only bounds the
iteration count structurally: every successful strip removes at least one
character, so fuel equal to the input length is always sufficient (when the
fuel hits zero the remaining list is empty and no nonempty suffix can match
anyway). -/
def trimEndMatchesGo : Nat → List Char → List Char → List Char
  | 0, l, _ => l
  | fuel + 1, l, pat =>
    if !pat.isEmpty && isSuffixL pat l then
      trimEndMatchesGo fuel (dropSuffixL l pat) pat
    else l

/-- Model of `str::trim_end_matches(pat)`. -/
def rustTrimEndMatches (s pat : String) : String :=
  ⟨trimEndMatchesGo s.data.length s.data pat.data⟩

/-- Worker for `rustTrimStartMatches`; fuel as in `trimEndMatchesGo`. -/
def trimStartMatchesGo : Nat → List Char → List Char → List Char
  | 0, l, _ => l
  | fuel + 1, l, pat =>
    if !pat.isEmpty && isPrefixL pat l then
      trimStartMatchesGo fuel (l.drop pat.length) pat
    else l

/-- Model of `str::trim_start_matches(pat)`. -/
def rustTrimStartMatches (s pat : String) : String :=
  ⟨trimStartMatchesGo s.data.length s.data pat.data⟩

/-- UTF-8 byte width of a character. -/
def charUtf8Size (c : Char) : Nat :=
  if c.toNat < 0x80 then 1 else if c.toNat < 0x800 then 2
  else if c.toNat < 0x10000 then 3 else 4

/-- Byte-level model of the Rust slice `s[n..]`: `none` exactly when Rust
would panic (index out of bounds or not on a character boundary). -/
def byteDrop : List Char → Nat → Option (List Char)
  | cs, 0 => some cs
  | [], _ + 1 => none
  | c :: cs, n + 1 =>
    if charUtf8Size c ≤ n + 1 then byteDrop cs (n + 1 - charUtf8Size c) else none

/-- Decidable list membership for strings (model of `HashSet::contains` /
`Vec::contains`, where the set is represented by the list of its elements). -/
def containsStr : List String → String → Bool
  | [], _ => false
  | x :: rest, a => x == a || containsStr rest a

/-! ## The program -/

/-- The two fields of the Todoist task record that the merge logic reads
(`content` and `checked`); the remaining provider metadata (ids, timestamps,
labels, …) is never consulted by the document engine. -/
structure Todo where
  content : String
  checked : Bool
deriving DecidableEq, Repr

/-- Loop body of `parse_existing_markdown`: scans lines in order, tracking
the accumulated todos, the tail-capture flag and the captured tail lines. -/
def parseLoop : List String → List (String × Bool) → Bool → List String →
    List (String × Bool) × List String
  | [], todos, _, notesLines => (todos, notesLines)
  | line :: rest, todos, inNotes, notesLines =>
    let trimmed := rustTrim line
    if trimmed = "---" then parseLoop rest todos true notesLines
    else if inNotes then parseLoop rest todos inNotes (notesLines ++ [line])
    else if rustStartsWith trimmed "- [ ]" then
      parseLoop rest (todos ++ [(rustTrim (charDrop trimmed 5), false)]) inNotes notesLines
    else if rustStartsWith trimmed "- [x]" then
      let c0 := rustTrim (charDrop trimmed 5)
      let c := if rustEndsWith c0 "*(marked as finished)*" then
          rustTrim (rustTrimEndMatches c0 "*(marked as finished)*")
        else c0
      parseLoop rest (todos ++ [(c, true)]) inNotes notesLines
    else if rustStartsWith trimmed ":todo:" then
      parseLoop rest (todos ++ [(rustTrim (charDrop trimmed 6), false)]) inNotes notesLines
    else if rustStartsWith trimmed ":todo_done:" then
      let c0 := rustTrim (charDrop trimmed 11)
      let c := if rustEndsWith c0 "*(marked as finished)*" then
          rustTrim (rustTrimEndMatches c0 "*(marked as finished)*")
        else c0
      parseLoop rest (todos ++ [(c, true)]) inNotes notesLines
    else parseLoop rest todos inNotes notesLines

/-- `parse_existing_markdown` from `main.rs`: extracts `(content, completed)`
pairs and the optional preserved notes tail. -/
def parse_existing_markdown (content : String) : List (String × Bool) × Option String :=
  let r := parseLoop (rustLines content) [] false []
  (r.1, if r.2.isEmpty then none else some (strIntercalate "\n" r.2))

/-- First loop of `generate_markdown_content`: emit each currently completed
todo, record its content in `added_completed`, set `has_completed`. -/
def currentCompletedFold : List Todo → String × List String × Bool → String × List String × Bool
  | [], st => st
  | t :: rest, (content, added, _) =>
    currentCompletedFold rest (content ++ "- [x] " ++ t.content ++ "\n", t.content :: added, true)

/-- Second loop of `generate_markdown_content`: walk prior entries, preserving
previously completed ones and annotating vanished active ones. -/
def existingFold (currentContents : List String) :
    List (String × Bool) → String × List String × Bool → String × List String × Bool
  | [], st => st
  | (ec, w) :: rest, (content, added, hasCompleted) =>
    let inCurrent := containsStr currentContents ec
    let alreadyAdded := containsStr added ec
    if w && !alreadyAdded then
      existingFold currentContents rest (content ++ "- [x] " ++ ec ++ "\n", ec :: added, true)
    else if !w && !inCurrent && !alreadyAdded then
      existingFold currentContents rest
        (content ++ "- [x] " ++ ec ++ " *(marked as finished)*" ++ "\n", added, true)
    else existingFold currentContents rest (content, added, hasCompleted)

/-- `generate_markdown_content` from `main.rs`. -/
def generate_markdown_content (currentTodos : List Todo) (existingTodos : List (String × Bool))
    (existingMessageId : Option String) (preservedNotes : Option String) : String :=
  let header := match existingMessageId with
    | some m => "<!-- slack_message_id: " ++ m ++ " -->" ++ "\n"
    | none => ""
  let currentContents := currentTodos.map (·.content)
  let activeTodos := currentTodos.filter (fun t => !t.checked)
  let activePart :=
    if activeTodos.isEmpty then "_No active todos found! 🎉_\n\n"
    else strConcat (activeTodos.map (fun t => "- [ ] " ++ t.content ++ "\n"))
  let base := header ++ "## Active Todos\n\n" ++ activePart ++ "\n## Completed Todos\n\n"
  let completedTodos := currentTodos.filter (fun t => t.checked)
  let st1 := currentCompletedFold completedTodos (base, [], false)
  let st2 := existingFold currentContents existingTodos st1
  let content := if !st2.2.2 then st2.1 ++ "_No completed todos yet._\n\n" else st2.1
  match preservedNotes with
  | none => content
  | some notes =>
    let withNotes := content ++ "---\n" ++ notes
    if notes.data.getLast? = some '\n' then withNotes else withNotes ++ "\n"

/-- The metadata-line predicate shared by `extract_slack_message_id` and
`add_slack_message_id`. -/
def isMetaLine (l : String) : Bool :=
  rustStartsWith l "<!-- slack_message_id: " && rustEndsWith l " -->"

/-- Loop of `extract_slack_message_id`: first matching line wins. -/
def extractLoop : List String → Option String
  | [] => none
  | l :: rest =>
    if isMetaLine l then
      some (rustTrimEndMatches (rustTrimStartMatches l "<!-- slack_message_id: ") " -->")
    else extractLoop rest

/-- `extract_slack_message_id` from `main.rs`. -/
def extract_slack_message_id (content : String) : Option String :=
  extractLoop (rustLines content)

/-- Replace the first metadata line, if any (loop of `add_slack_message_id`). -/
def replaceFirstMeta : List String → String → Option (List String)
  | [], _ => none
  | l :: rest, m =>
    if isMetaLine l then some (m :: rest)
    else (replaceFirstMeta rest m).map (l :: ·)

/-- `add_slack_message_id` from `main.rs`: replace an existing metadata line
in place (re-joining the lines with `"\n"`), else prepend a fresh one. -/
def add_slack_message_id (content messageId : String) : String :=
  let metadataLine := "<!-- slack_message_id: " ++ messageId ++ " -->"
  match replaceFirstMeta (rustLines content) metadataLine with
  | some ls => strIntercalate "\n" ls
  | none => metadataLine ++ "\n" ++ content

/-- `validate_message_id` from `main.rs`: exactly two dot-separated parts,
both parsing as `u64`. -/
def validate_message_id (messageId : String) : Bool :=
  match rustSplitChar messageId '.' with
  | [a, b] => (rustParseU64 a).isSome && (rustParseU64 b).isSome
  | _ => false

/-- Loop body of `parse_existing_markdown` with the byte-level slice model:
returns `none` exactly when the corresponding Rust slice would panic. -/
def parseLoopChecked : List String → List (String × Bool) → Bool → List String →
    Option (List (String × Bool) × List String)
  | [], todos, _, notesLines => some (todos, notesLines)
  | line :: rest, todos, inNotes, notesLines =>
    let trimmed := rustTrim line
    if trimmed = "---" then parseLoopChecked rest todos true notesLines
    else if inNotes then parseLoopChecked rest todos inNotes (notesLines ++ [line])
    else if rustStartsWith trimmed "- [ ]" then
      match byteDrop trimmed.data 5 with
      | none => none
      | some cs => parseLoopChecked rest (todos ++ [(rustTrim ⟨cs⟩, false)]) inNotes notesLines
    else if rustStartsWith trimmed "- [x]" then
      match byteDrop trimmed.data 5 with
      | none => none
      | some cs =>
        let c0 := rustTrim ⟨cs⟩
        let c := if rustEndsWith c0 "*(marked as finished)*" then
            rustTrim (rustTrimEndMatches c0 "*(marked as finished)*")
          else c0
        parseLoopChecked rest (todos ++ [(c, true)]) inNotes notesLines
    else if rustStartsWith trimmed ":todo:" then
      match byteDrop trimmed.data 6 with
      | none => none
      | some cs => parseLoopChecked rest (todos ++ [(rustTrim ⟨cs⟩, false)]) inNotes notesLines
    else if rustStartsWith trimmed ":todo_done:" then
      match byteDrop trimmed.data 11 with
      | none => none
      | some cs =>
        let c0 := rustTrim ⟨cs⟩
        let c := if rustEndsWith c0 "*(marked as finished)*" then
            rustTrim (rustTrimEndMatches c0 "*(marked as finished)*")
          else c0
        parseLoopChecked rest (todos ++ [(c, true)]) inNotes notesLines
    else parseLoopChecked rest todos inNotes notesLines

/-- `parse_existing_markdown` with the byte-level slice model. -/
def parse_existing_markdown_checked (content : String) :
    Option (List (String × Bool) × Option String) :=
  match parseLoopChecked (rustLines content) [] false [] with
  | none => none
  | some r => some (r.1, if r.2.isEmpty then none else some (strIntercalate "\n" r.2))

/-! ## String and line infrastructure lemmas -/

theorem strExt {a b : String} (h : a.data = b.data) : a = b := by
  cases a; cases b; cases h; rfl

theorem data_append (a b : String) : (a ++ b).data = a.data ++ b.data := rfl

theorem data_mk (l : List Char) : (⟨l⟩ : String).data = l := rfl

theorem strAppend_assoc (a b c : String) : a ++ b ++ c = a ++ (b ++ c) :=
  strExt (by simp [data_append])

theorem strAppend_empty (a : String) : a ++ "" = a :=
  strExt (by simp [data_append])

theorem empty_strAppend (a : String) : "" ++ a = a :=
  strExt (by simp [data_append])

/-- A line is clean when it contains neither `'\n'` nor `'\r'`. -/
def LineClean (s : String) : Prop := '\n' ∉ s.data ∧ '\r' ∉ s.data

instance : DecidablePred LineClean := fun s => by unfold LineClean; infer_instance

theorem stripCRL_of_clean {l : List Char} (h : '\r' ∉ l) : stripCRL l = l := by
  unfold stripCRL
  split
  · next hl =>
    exact absurd (List.mem_of_mem_getLast? hl) h
  · rfl

theorem linesGo_newline (acc rest : List Char) :
    linesGo acc ('\n' :: rest) = stripCRL acc.reverse :: linesGo [] rest := by
  simp [linesGo]

theorem linesGo_other {c : Char} (h : c ≠ '\n') (acc rest : List Char) :
    linesGo acc (c :: rest) = linesGo (c :: acc) rest := by
  simp [linesGo, h]

theorem linesGo_line {l : List Char} (hl : '\n' ∉ l) (acc rest : List Char) :
    linesGo acc (l ++ '\n' :: rest) = stripCRL (acc.reverse ++ l) :: linesGo [] rest := by
  induction l generalizing acc with
  | nil => simpa using linesGo_newline acc rest
  | cons c cs ih =>
    have hc : c ≠ '\n' := fun h => hl (h ▸ List.mem_cons_self c cs)
    have hcs : '\n' ∉ cs := fun h => hl (List.mem_cons_of_mem _ h)
    rw [List.cons_append, linesGo_other hc, ih hcs]
    simp

theorem rustLines_empty : rustLines "" = [] := rfl

theorem rustLines_cons_line (x : String) (hx : LineClean x) (rest : String) :
    rustLines (x ++ "\n" ++ rest) = x :: rustLines rest := by
  unfold rustLines
  have hdata : (x ++ "\n" ++ rest).data = x.data ++ '\n' :: rest.data := by
    simp [data_append]
  rw [hdata, linesGo_line hx.1, stripCRL_of_clean (by simpa using hx.2)]
  simp

theorem strConcat_append (l₁ l₂ : List String) :
    strConcat (l₁ ++ l₂) = strConcat l₁ ++ strConcat l₂ := by
  induction l₁ with
  | nil => simp [strConcat, empty_strAppend]
  | cons x xs ih => simp [strConcat, ih, strAppend_assoc]

/-- Join a list of lines, terminating each with `"\n"`. -/
def joinLines (L : List String) : String := strConcat (L.map (· ++ "\n"))

theorem joinLines_nil : joinLines [] = "" := rfl

theorem joinLines_cons (x : String) (L : List String) :
    joinLines (x :: L) = x ++ "\n" ++ joinLines L := by
  simp [joinLines, strConcat, strAppend_assoc]

theorem joinLines_append (l₁ l₂ : List String) :
    joinLines (l₁ ++ l₂) = joinLines l₁ ++ joinLines l₂ := by
  simp [joinLines, strConcat_append]

/-- Round trip: splitting a newline-terminated join recovers the lines. -/
theorem rustLines_joinLines (L : List String) (h : ∀ l ∈ L, LineClean l) :
    rustLines (joinLines L) = L := by
  induction L with
  | nil => simpa [joinLines_nil] using rustLines_empty
  | cons x xs ih =>
    rw [joinLines_cons, rustLines_cons_line x (h x (List.mem_cons_self x xs)),
      ih (fun l hl => h l (List.mem_cons_of_mem _ hl))]

theorem containsStr_eq_true_iff (l : List String) (a : String) :
    containsStr l a = true ↔ a ∈ l := by
  induction l with
  | nil => simp [containsStr]
  | cons x xs ih =>
    simp only [containsStr, Bool.or_eq_true, beq_iff_eq, ih, List.mem_cons]
    tauto

theorem containsStr_eq_false_iff (l : List String) (a : String) :
    containsStr l a = false ↔ a ∉ l := by
  rw [← containsStr_eq_true_iff l a]
  cases containsStr l a <;> simp

/-! ## Renderer characterization

`generate_markdown_content` with no message id and no notes is a
newline-terminated join of an explicit list of lines.  `priorEmit` mirrors the
second loop of the renderer, recording for each emitted prior entry its text
and whether it received the newly-finished annotation. -/

/-- An active checkbox line as rendered. -/
def fmtActiveLine (c : String) : String := "- [ ] " ++ c

/-- A plain completed checkbox line as rendered. -/
def fmtDoneLine (c : String) : String := "- [x] " ++ c

/-- A newly-finished (annotated) completed checkbox line as rendered. -/
def fmtFinishedLine (c : String) : String := "- [x] " ++ c ++ " *(marked as finished)*"

/-- The entries emitted by the renderer's pass over prior entries, given the
current contents `cc` and the running `added_completed` set: `(text, false)`
is a preserved completed entry, `(text, true)` a newly-finished one. -/
def priorEmit (cc : List String) : List (String × Bool) → List String → List (String × Bool)
  | [], _ => []
  | (ec, w) :: rest, added =>
    if w && !containsStr added ec then (ec, false) :: priorEmit cc rest (ec :: added)
    else if !w && !containsStr cc ec && !containsStr added ec then
      (ec, true) :: priorEmit cc rest added
    else priorEmit cc rest added

/-- Final `added_completed` set after the pass over prior entries. -/
def priorAddedF (cc : List String) : List (String × Bool) → List String → List String
  | [], added => added
  | (ec, w) :: rest, added =>
    if w && !containsStr added ec then priorAddedF cc rest (ec :: added)
    else priorAddedF cc rest added

/-- The rendered line of one emitted prior entry. -/
def priorLine : String × Bool → String
  | (t, false) => fmtDoneLine t
  | (t, true) => fmtFinishedLine t

/-- Lines of the Active section (placeholder when no active todo). -/
def activeLines (currentTodos : List Todo) : List String :=
  let a := currentTodos.filter (fun t => !t.checked)
  if a.isEmpty then ["_No active todos found! 🎉_", ""]
  else a.map (fun t => fmtActiveLine t.content)

/-- Checkbox lines of the Completed section: current-fetch completed todos
first, then the prior-entry emissions in prior-document order. -/
def completedLines (current : List Todo) (existing : List (String × Bool)) : List String :=
  (current.filter (fun t => t.checked)).map (fun t => fmtDoneLine t.content)
    ++ (priorEmit (current.map (·.content)) existing
        (((current.filter (fun t => t.checked)).map (·.content)).reverse)).map priorLine

/-- All lines of the rendered document (no message id, no preserved tail). -/
def renderedLines (current : List Todo) (existing : List (String × Bool)) : List String :=
  ["## Active Todos", ""] ++ activeLines current ++ ["", "## Completed Todos", ""]
    ++ completedLines current existing
    ++ (if (completedLines current existing).isEmpty then ["_No completed todos yet._", ""]
        else [])

theorem currentCompletedFold_eq (l : List Todo) :
    ∀ (s : String) (added : List String) (hc : Bool),
    currentCompletedFold l (s, added, hc) =
      (s ++ joinLines (l.map (fun t => fmtDoneLine t.content)),
       (l.map (·.content)).reverse ++ added,
       hc || !l.isEmpty) := by
  induction l with
  | nil =>
    intro s added hc
    simp [currentCompletedFold, joinLines, strConcat, strAppend_empty]
  | cons t rest ih =>
    intro s added hc
    simp only [currentCompletedFold]
    rw [ih]
    simp [joinLines_cons, strAppend_assoc, fmtDoneLine, List.append_assoc]

theorem existingFold_eq (cc : List String) (ex : List (String × Bool)) :
    ∀ (s : String) (added : List String) (hc : Bool),
    existingFold cc ex (s, added, hc) =
      (s ++ joinLines ((priorEmit cc ex added).map priorLine),
       priorAddedF cc ex added,
       hc || !(priorEmit cc ex added).isEmpty) := by
  induction ex with
  | nil =>
    intro s added hc
    simp [existingFold, priorEmit, priorAddedF, joinLines, strConcat, strAppend_empty]
  | cons p rest ih =>
    obtain ⟨ec, w⟩ := p
    intro s added hc
    cases h1 : w && !containsStr added ec with
    | true =>
      simp only [existingFold, priorEmit, priorAddedF, h1, if_true]
      rw [ih]
      simp [joinLines_cons, strAppend_assoc, priorLine, fmtDoneLine]
    | false =>
      cases h2 : !w && !containsStr cc ec && !containsStr added ec with
      | true =>
        simp only [existingFold, priorEmit, priorAddedF, h1, h2, if_true, if_false,
          Bool.false_eq_true]
        rw [ih]
        simp [joinLines_cons, strAppend_assoc, priorLine, fmtFinishedLine]
      | false =>
        simp only [existingFold, priorEmit, priorAddedF, h1, h2, if_false,
          Bool.false_eq_true]
        rw [ih]

theorem isEmptyAppend (l₁ l₂ : List String) :
    (l₁ ++ l₂).isEmpty = (l₁.isEmpty && l₂.isEmpty) := by
  cases l₁ <;> simp [List.isEmpty]

theorem isEmptyMap {α β : Type} (l : List α) (f : α → β) :
    (l.map f).isEmpty = l.isEmpty := by
  cases l <;> simp [List.isEmpty]

theorem joinLines_headerA : joinLines ["## Active Todos", ""] = "## Active Todos\n\n" := by
  decide

theorem joinLines_headerC :
    joinLines ["", "## Completed Todos", ""] = "\n## Completed Todos\n\n" := by
  decide

theorem joinLines_phActive :
    joinLines ["_No active todos found! 🎉_", ""] = "_No active todos found! 🎉_\n\n" := by
  decide

theorem joinLines_phCompleted :
    joinLines ["_No completed todos yet._", ""] = "_No completed todos yet._\n\n" := by
  decide

/-- The rendered document (no message id, no preserved tail) is the
newline-terminated join of `renderedLines`. -/
theorem generate_none_eq (current : List Todo) (existing : List (String × Bool)) :
    generate_markdown_content current existing none none =
      joinLines (renderedLines current existing) := by
  simp only [generate_markdown_content]
  rw [currentCompletedFold_eq, existingFold_eq]
  simp only [renderedLines, completedLines, activeLines, joinLines_append, List.append_nil]
  cases hA : (current.filter (fun t => !t.checked)).isEmpty with
  | true =>
    cases hC : (current.filter (fun t => t.checked)).isEmpty with
    | true =>
      have hC' : current.filter (fun t => t.checked) = [] := by simpa using hC
      cases hP : (priorEmit (current.map (·.content)) existing
          (((current.filter (fun t => t.checked)).map (·.content)).reverse)).isEmpty with
      | true =>
        simp only [hC', List.map_nil, List.reverse_nil] at hP
        have hP' : priorEmit (current.map (·.content)) existing [] = [] := by simpa using hP
        simp [hA, hC', hP', joinLines, strConcat, List.map_map, Function.comp_def,
          fmtActiveLine, fmtDoneLine, strAppend_empty, empty_strAppend, ← strAppend_assoc]
      | false =>
        simp only [hC', List.map_nil, List.reverse_nil] at hP
        have hP' : priorEmit (current.map (·.content)) existing [] ≠ [] := by simpa using hP
        simp [hA, hC', hP', joinLines, strConcat, List.map_map, Function.comp_def,
          fmtActiveLine, fmtDoneLine, strAppend_empty, empty_strAppend, ← strAppend_assoc]
    | false =>
      simp [hA, hC, isEmptyAppend, isEmptyMap, joinLines, strConcat, List.map_map,
        Function.comp_def, fmtActiveLine, fmtDoneLine, strAppend_empty, empty_strAppend,
        ← strAppend_assoc]
  | false =>
    cases hC : (current.filter (fun t => t.checked)).isEmpty with
    | true =>
      have hC' : current.filter (fun t => t.checked) = [] := by simpa using hC
      cases hP : (priorEmit (current.map (·.content)) existing
          (((current.filter (fun t => t.checked)).map (·.content)).reverse)).isEmpty with
      | true =>
        simp only [hC', List.map_nil, List.reverse_nil] at hP
        have hP' : priorEmit (current.map (·.content)) existing [] = [] := by simpa using hP
        simp [hA, hC', hP', joinLines, strConcat, List.map_map, Function.comp_def,
          fmtActiveLine, fmtDoneLine, strAppend_empty, empty_strAppend, ← strAppend_assoc]
      | false =>
        simp only [hC', List.map_nil, List.reverse_nil] at hP
        have hP' : priorEmit (current.map (·.content)) existing [] ≠ [] := by simpa using hP
        simp [hA, hC', hP', joinLines, strConcat, List.map_map, Function.comp_def,
          fmtActiveLine, fmtDoneLine, strAppend_empty, empty_strAppend, ← strAppend_assoc]
    | false =>
      simp [hA, hC, isEmptyAppend, isEmptyMap, joinLines, strConcat, List.map_map,
        Function.comp_def, fmtActiveLine, fmtDoneLine, strAppend_empty, empty_strAppend,
        ← strAppend_assoc]

/-- Appending a preserved tail: the rendered document with notes is the
rendered document without notes, followed by the delimiter line and the notes
(with a newline appended when the notes do not already end with one). -/
theorem generate_some_notes_eq (current : List Todo) (existing : List (String × Bool))
    (mid : Option String) (notes : String) :
    generate_markdown_content current existing mid (some notes) =
      generate_markdown_content current existing mid none ++ "---\n" ++ notes
        ++ (if notes.data.getLast? = some '\n' then "" else "\n") := by
  simp only [generate_markdown_content]
  by_cases h : notes.data.getLast? = some '\n' <;>
    simp [h, strAppend_assoc, strAppend_empty]

theorem lineClean_append {a b : String} (ha : LineClean a) (hb : LineClean b) :
    LineClean (a ++ b) := by
  constructor
  · rw [data_append]
    simp only [List.mem_append]
    rintro (h | h)
    exacts [ha.1 h, hb.1 h]
  · rw [data_append]
    simp only [List.mem_append]
    rintro (h | h)
    exacts [ha.2 h, hb.2 h]

theorem lineClean_fmtActive {c : String} (h : LineClean c) : LineClean (fmtActiveLine c) :=
  lineClean_append (by decide) h

theorem lineClean_fmtDone {c : String} (h : LineClean c) : LineClean (fmtDoneLine c) :=
  lineClean_append (by decide) h

theorem lineClean_fmtFinished {c : String} (h : LineClean c) : LineClean (fmtFinishedLine c) :=
  lineClean_append (lineClean_append (by decide) h) (by decide)

/-- Every entry emitted by the prior-entry pass comes from a prior entry:
preserved entries from a completed one, newly-finished entries from an active
one whose text is absent from the current contents. -/
theorem priorEmit_mem {cc : List String} {ex : List (String × Bool)} {added : List String}
    {e : String × Bool} (h : e ∈ priorEmit cc ex added) :
    (e.2 = false ∧ (e.1, true) ∈ ex) ∨
      (e.2 = true ∧ (e.1, false) ∈ ex ∧ containsStr cc e.1 = false) := by
  induction ex generalizing added with
  | nil => simp [priorEmit] at h
  | cons p rest ih =>
    obtain ⟨ec, w⟩ := p
    by_cases h1 : (w && !containsStr added ec) = true
    · rw [priorEmit, if_pos h1] at h
      rcases List.mem_cons.mp h with h' | h'
      · subst h'
        left
        refine ⟨rfl, ?_⟩
        have hw : w = true := by
          rcases Bool.and_eq_true_iff.mp h1 with ⟨hw, -⟩
          exact hw
        exact hw ▸ List.mem_cons_self _ _
      · rcases ih h' with hh | hh
        · exact Or.inl ⟨hh.1, List.mem_cons_of_mem _ hh.2⟩
        · exact Or.inr ⟨hh.1, List.mem_cons_of_mem _ hh.2.1, hh.2.2⟩
    · by_cases h2 : (!w && !containsStr cc ec && !containsStr added ec) = true
      · rw [priorEmit, if_neg h1, if_pos h2] at h
        rcases List.mem_cons.mp h with h' | h'
        · subst h'
          right
          rcases Bool.and_eq_true_iff.mp h2 with ⟨h3, -⟩
          rcases Bool.and_eq_true_iff.mp h3 with ⟨hw, hcc⟩
          have hw' : w = false := by
            cases w
            · rfl
            · simp at hw
          refine ⟨rfl, hw' ▸ List.mem_cons_self _ _, ?_⟩
          cases hxc : containsStr cc ec
          · rfl
          · rw [hxc] at hcc
            simp at hcc
        · rcases ih h' with hh | hh
          · exact Or.inl ⟨hh.1, List.mem_cons_of_mem _ hh.2⟩
          · exact Or.inr ⟨hh.1, List.mem_cons_of_mem _ hh.2.1, hh.2.2⟩
      · rw [priorEmit, if_neg h1, if_neg h2] at h
        rcases ih h with hh | hh
        · exact Or.inl ⟨hh.1, List.mem_cons_of_mem _ hh.2⟩
        · exact Or.inr ⟨hh.1, List.mem_cons_of_mem _ hh.2.1, hh.2.2⟩

theorem renderedLines_clean (current : List Todo) (existing : List (String × Bool))
    (hc : ∀ t ∈ current, LineClean t.content) (he : ∀ p ∈ existing, LineClean p.1) :
    ∀ l ∈ renderedLines current existing, LineClean l := by
  intro l hl
  unfold renderedLines at hl
  rcases List.mem_append.mp hl with h4 | hph
  · rcases List.mem_append.mp h4 with h3 | hcomp
    · rcases List.mem_append.mp h3 with h2 | hmid
      · rcases List.mem_append.mp h2 with hhdr | hact
        · simp only [List.mem_cons, List.not_mem_nil, or_false] at hhdr
          rcases hhdr with rfl | rfl
          · decide
          · decide
        · simp only [activeLines] at hact
          split at hact
          · simp only [List.mem_cons, List.not_mem_nil, or_false] at hact
            rcases hact with rfl | rfl
            · decide
            · decide
          · rcases List.mem_map.mp hact with ⟨t, ht, rfl⟩
            exact lineClean_fmtActive (hc t (List.mem_of_mem_filter ht))
      · simp only [List.mem_cons, List.not_mem_nil, or_false] at hmid
        rcases hmid with rfl | rfl | rfl
        · decide
        · decide
        · decide
    · unfold completedLines at hcomp
      rcases List.mem_append.mp hcomp with h' | h'
      · rcases List.mem_map.mp h' with ⟨t, ht, rfl⟩
        exact lineClean_fmtDone (hc t (List.mem_of_mem_filter ht))
      · rcases List.mem_map.mp h' with ⟨e, he', rfl⟩
        have hclean : LineClean e.1 := by
          rcases priorEmit_mem he' with ⟨-, hmem⟩ | ⟨-, hmem, -⟩
          · exact he (e.1, true) hmem
          · exact he (e.1, false) hmem
        obtain ⟨t, b⟩ := e
        cases b
        · exact lineClean_fmtDone hclean
        · exact lineClean_fmtFinished hclean
  · split at hph
    · simp only [List.mem_cons, List.not_mem_nil, or_false] at hph
      rcases hph with rfl | rfl
      · decide
      · decide
    · simp at hph

/-- Lines of the rendered document (no message id, no tail). -/
theorem rustLines_generate_none (current : List Todo) (existing : List (String × Bool))
    (hc : ∀ t ∈ current, LineClean t.content) (he : ∀ p ∈ existing, LineClean p.1) :
    rustLines (generate_markdown_content current existing none none) =
      renderedLines current existing := by
  rw [generate_none_eq]
  exact rustLines_joinLines _ (renderedLines_clean current existing hc he)



/-! ## Shape lemmas for rendered lines -/

theorem strCancel_left {p a b : String} (h : p ++ a = p ++ b) : a = b := by
  have h' := congrArg String.data h
  rw [data_append, data_append] at h'
  exact strExt (List.append_cancel_left h')

theorem strCancel_right {a b s : String} (h : a ++ s = b ++ s) : a = b := by
  have h' := congrArg String.data h
  rw [data_append, data_append] at h'
  exact strExt (List.append_cancel_right h')

theorem fmtActiveLine_inj {a b : String} (h : fmtActiveLine a = fmtActiveLine b) : a = b :=
  strCancel_left h

theorem fmtDoneLine_inj {a b : String} (h : fmtDoneLine a = fmtDoneLine b) : a = b :=
  strCancel_left h

theorem fmtFinishedLine_inj {a b : String} (h : fmtFinishedLine a = fmtFinishedLine b) :
    a = b :=
  strCancel_left (strCancel_right h)

theorem fmtDone_eq_finished {c T : String} (h : fmtDoneLine c = fmtFinishedLine T) :
    c = T ++ " *(marked as finished)*" := by
  unfold fmtDoneLine fmtFinishedLine at h
  rw [strAppend_assoc] at h
  exact strCancel_left h

theorem get?_data_eq {A B : String} (h : A = B) (n : Nat) : A.data[n]? = B.data[n]? := by
  rw [h]

theorem fmtActiveLine_data (a : String) : (fmtActiveLine a).data = "- [ ] ".data ++ a.data :=
  rfl

theorem fmtDoneLine_data (a : String) : (fmtDoneLine a).data = "- [x] ".data ++ a.data :=
  rfl

theorem fmtFinishedLine_data (a : String) :
    (fmtFinishedLine a).data = "- [x] ".data ++ (a.data ++ " *(marked as finished)*".data) := by
  show ("- [x] ".data ++ a.data) ++ " *(marked as finished)*".data = _
  rw [List.append_assoc]

theorem getQ_active (x : List Char) (n : Nat) (h : n < 6) :
    ("- [ ] ".data ++ x)[n]? = "- [ ] ".data[n]? :=
  List.getElem?_append_left (by simpa using h)

theorem getQ_done (x : List Char) (n : Nat) (h : n < 6) :
    ("- [x] ".data ++ x)[n]? = "- [x] ".data[n]? :=
  List.getElem?_append_left (by simpa using h)

theorem fmtActive_ne_fmtDone (a b : String) : fmtActiveLine a ≠ fmtDoneLine b := by
  intro h
  have h' := get?_data_eq h 3
  rw [fmtActiveLine_data, fmtDoneLine_data, getQ_active _ 3 (by omega),
    getQ_done _ 3 (by omega)] at h'
  exact absurd h' (by decide)

theorem fmtActive_ne_fmtFinished (a b : String) : fmtActiveLine a ≠ fmtFinishedLine b := by
  intro h
  have h' := get?_data_eq h 3
  rw [fmtActiveLine_data, fmtFinishedLine_data, getQ_active _ 3 (by omega),
    getQ_done _ 3 (by omega)] at h'
  exact absurd h' (by decide)

theorem checkbox_ne_lit {p T : String} {l : String} (hp : p.data[0]? = some '-')
    (hplen : 0 < p.data.length) (hl : l.data[0]? ≠ some '-') : ¬(p ++ T = l) := by
  intro h
  apply hl
  have h' := get?_data_eq h 0
  rw [data_append, List.getElem?_append_left hplen, hp] at h'
  exact h'.symm

theorem fmtActive_ne_headerA (a : String) : fmtActiveLine a ≠ "## Active Todos" :=
  checkbox_ne_lit (by decide) (by decide) (by decide)

theorem fmtActive_ne_empty (a : String) : fmtActiveLine a ≠ "" :=
  checkbox_ne_lit (by decide) (by decide) (by decide)

theorem fmtActive_ne_headerC (a : String) : fmtActiveLine a ≠ "## Completed Todos" :=
  checkbox_ne_lit (by decide) (by decide) (by decide)

theorem fmtActive_ne_phA (a : String) : fmtActiveLine a ≠ "_No active todos found! 🎉_" :=
  checkbox_ne_lit (by decide) (by decide) (by decide)

theorem fmtActive_ne_phC (a : String) : fmtActiveLine a ≠ "_No completed todos yet._" :=
  checkbox_ne_lit (by decide) (by decide) (by decide)

theorem fmtDone_ne_headerA (a : String) : fmtDoneLine a ≠ "## Active Todos" :=
  checkbox_ne_lit (by decide) (by decide) (by decide)

theorem fmtDone_ne_empty (a : String) : fmtDoneLine a ≠ "" :=
  checkbox_ne_lit (by decide) (by decide) (by decide)

theorem fmtDone_ne_headerC (a : String) : fmtDoneLine a ≠ "## Completed Todos" :=
  checkbox_ne_lit (by decide) (by decide) (by decide)

theorem fmtDone_ne_phA (a : String) : fmtDoneLine a ≠ "_No active todos found! 🎉_" :=
  checkbox_ne_lit (by decide) (by decide) (by decide)

theorem fmtDone_ne_phC (a : String) : fmtDoneLine a ≠ "_No completed todos yet._" :=
  checkbox_ne_lit (by decide) (by decide) (by decide)

theorem fmtFinished_ne_lit {b l : String} (hl : l.data[0]? ≠ some '-') :
    ¬(fmtFinishedLine b = l) := by
  unfold fmtFinishedLine
  rw [strAppend_assoc]
  exact checkbox_ne_lit (by decide) (by decide) hl

theorem isPrefixL_self_append (p r : List Char) : isPrefixL p (p ++ r) = true := by
  induction p with
  | nil => simp [isPrefixL]
  | cons c cs ih => simp [isPrefixL, ih]

/-- An annotated rendering always ends with the annotation marker. -/
theorem endsWith_annot (b : String) :
    rustEndsWith (b ++ " *(marked as finished)*") "*(marked as finished)*" = true := by
  unfold rustEndsWith isSuffixL
  rw [data_append, List.reverse_append]
  have hlit : " *(marked as finished)*".data.reverse =
      "*(marked as finished)*".data.reverse ++ [' '] := by decide
  rw [hlit, List.append_assoc]
  exact isPrefixL_self_append _ _


/-! ## Membership analysis of rendered lines -/

/-- Every line of the rendered document is a header, a placeholder, a blank
line, an active line for an unchecked fetched todo, a plain completed line
for a checked fetched todo, or the rendering of an emitted prior entry. -/
theorem mem_renderedLines_cases {current : List Todo} {existing : List (String × Bool)}
    {l : String} (h : l ∈ renderedLines current existing) :
    l = "## Active Todos" ∨ l = "" ∨ l = "## Completed Todos" ∨
      l = "_No active todos found! 🎉_" ∨ l = "_No completed todos yet._" ∨
      (∃ t ∈ current, t.checked = false ∧ l = fmtActiveLine t.content) ∨
      (∃ t ∈ current, t.checked = true ∧ l = fmtDoneLine t.content) ∨
      (∃ e ∈ priorEmit (current.map (·.content)) existing
          (((current.filter (fun t => t.checked)).map (·.content)).reverse),
        l = priorLine e) := by
  unfold renderedLines at h
  rcases List.mem_append.mp h with h4 | hph
  · rcases List.mem_append.mp h4 with h3 | hcomp
    · rcases List.mem_append.mp h3 with h2 | hmid
      · rcases List.mem_append.mp h2 with hhdr | hact
        · simp only [List.mem_cons, List.not_mem_nil, or_false] at hhdr
          rcases hhdr with rfl | rfl
          · exact Or.inl rfl
          · exact Or.inr (Or.inl rfl)
        · simp only [activeLines] at hact
          split at hact
          · simp only [List.mem_cons, List.not_mem_nil, or_false] at hact
            rcases hact with rfl | rfl
            · exact Or.inr (Or.inr (Or.inr (Or.inl rfl)))
            · exact Or.inr (Or.inl rfl)
          · rcases List.mem_map.mp hact with ⟨t, ht, rfl⟩
            have ht' := List.mem_filter.mp ht
            refine Or.inr (Or.inr (Or.inr (Or.inr (Or.inr (Or.inl ⟨t, ht'.1, ?_, rfl⟩)))))
            simpa using ht'.2
      · simp only [List.mem_cons, List.not_mem_nil, or_false] at hmid
        rcases hmid with rfl | rfl | rfl
        · exact Or.inr (Or.inl rfl)
        · exact Or.inr (Or.inr (Or.inl rfl))
        · exact Or.inr (Or.inl rfl)
    · unfold completedLines at hcomp
      rcases List.mem_append.mp hcomp with h' | h'
      · rcases List.mem_map.mp h' with ⟨t, ht, rfl⟩
        have ht' := List.mem_filter.mp ht
        refine Or.inr (Or.inr (Or.inr (Or.inr (Or.inr (Or.inr (Or.inl ⟨t, ht'.1, ?_, rfl⟩))))))
        simpa using ht'.2
      · rcases List.mem_map.mp h' with ⟨e, he', rfl⟩
        exact Or.inr (Or.inr (Or.inr (Or.inr (Or.inr (Or.inr (Or.inr ⟨e, he', rfl⟩))))))
  · split at hph
    · simp only [List.mem_cons, List.not_mem_nil, or_false] at hph
      rcases hph with rfl | rfl
      · exact Or.inr (Or.inr (Or.inr (Or.inr (Or.inl rfl))))
      · exact Or.inr (Or.inl rfl)
    · simp at hph

/-- Emission of the newly-finished entry: a prior `(T, active)` entry whose
text is absent from the current contents and never recorded completed in the
prior document is emitted annotated. -/
theorem priorEmit_annot_mem {cc : List String} {ex : List (String × Bool)}
    {added : List String} {T : String} (hmemT : (T, false) ∈ ex)
    (hccT : containsStr cc T = false)
    (hw : ∀ p ∈ ex, p.1 = T → p.2 = false)
    (haddT : containsStr added T = false) :
    (T, true) ∈ priorEmit cc ex added := by
  induction ex generalizing added with
  | nil => simp at hmemT
  | cons p rest ih =>
    obtain ⟨ec, w⟩ := p
    by_cases h1 : (w && !containsStr added ec) = true
    · rw [priorEmit, if_pos h1]
      have hw1 : w = true := (Bool.and_eq_true_iff.mp h1).1
      have hne : ec ≠ T := by
        intro he
        have := hw (ec, w) (List.mem_cons_self _ _) he
        rw [hw1] at this
        cases this
      have hmem' : (T, false) ∈ rest := by
        rcases List.mem_cons.mp hmemT with he | he
        · cases he
          exact absurd rfl hne
        · exact he
      refine List.mem_cons_of_mem _ (ih hmem' (fun p hp hep => hw p (List.mem_cons_of_mem _ hp) hep) ?_)
      simp only [containsStr, Bool.or_eq_false_iff]
      exact ⟨by simpa using hne, haddT⟩
    · by_cases h2 : (!w && !containsStr cc ec && !containsStr added ec) = true
      · rw [priorEmit, if_neg h1, if_pos h2]
        by_cases he : ec = T
        · subst he
          exact List.mem_cons_self _ _
        · have hmem' : (T, false) ∈ rest := by
            rcases List.mem_cons.mp hmemT with h' | h'
            · cases h'
              exact absurd rfl he
            · exact h'
          exact List.mem_cons_of_mem _
            (ih hmem' (fun p hp hep => hw p (List.mem_cons_of_mem _ hp) hep) haddT)
      · rw [priorEmit, if_neg h1, if_neg h2]
        have hmem' : (T, false) ∈ rest := by
          rcases List.mem_cons.mp hmemT with h' | h'
          · exfalso
            rw [Prod.mk.injEq] at h'
            obtain ⟨hTe, hwe⟩ := h'
            apply h2
            rw [← hwe]
            subst hTe
            simp only [Bool.not_false, Bool.true_and, Bool.and_eq_true, Bool.not_eq_true']
            exact ⟨hccT, haddT⟩
          · exact h'
        exact ih hmem' (fun p hp hep => hw p (List.mem_cons_of_mem _ hp) hep) haddT

/-- Emission of the preserved entry: a prior `(T, completed)` entry whose text
was never recorded active in the prior document and is not yet in the added
set is emitted as a plain completed line. -/
theorem priorEmit_plain_mem {cc : List String} {ex : List (String × Bool)}
    {added : List String} {T : String} (hmemT : (T, true) ∈ ex)
    (hw : ∀ p ∈ ex, p.1 = T → p.2 = true)
    (haddT : containsStr added T = false) :
    (T, false) ∈ priorEmit cc ex added := by
  induction ex generalizing added with
  | nil => simp at hmemT
  | cons p rest ih =>
    obtain ⟨ec, w⟩ := p
    by_cases h1 : (w && !containsStr added ec) = true
    · rw [priorEmit, if_pos h1]
      by_cases he : ec = T
      · subst he
        exact List.mem_cons_self _ _
      · have hmem' : (T, true) ∈ rest := by
          rcases List.mem_cons.mp hmemT with h' | h'
          · cases h'
            exact absurd rfl he
          · exact h'
        refine List.mem_cons_of_mem _ (ih hmem' (fun p hp hep => hw p (List.mem_cons_of_mem _ hp) hep) ?_)
        simp only [containsStr, Bool.or_eq_false_iff]
        exact ⟨by simpa using he, haddT⟩
    · by_cases h2 : (!w && !containsStr cc ec && !containsStr added ec) = true
      · rw [priorEmit, if_neg h1, if_pos h2]
        have hw0 : w = false := by
          have := (Bool.and_eq_true_iff.mp (Bool.and_eq_true_iff.mp h2).1).1
          cases w
          · rfl
          · cases this
        have hne : ec ≠ T := by
          intro he
          have := hw (ec, w) (List.mem_cons_self _ _) he
          rw [hw0] at this
          cases this
        have hmem' : (T, true) ∈ rest := by
          rcases List.mem_cons.mp hmemT with h' | h'
          · cases h'
            exact absurd rfl hne
          · exact h'
        exact List.mem_cons_of_mem _
          (ih hmem' (fun p hp hep => hw p (List.mem_cons_of_mem _ hp) hep) haddT)
      · rw [priorEmit, if_neg h1, if_neg h2]
        have hmem' : (T, true) ∈ rest := by
          rcases List.mem_cons.mp hmemT with h' | h'
          · exfalso
            rw [Prod.mk.injEq] at h'
            obtain ⟨hTe, hwe⟩ := h'
            apply h1
            rw [← hwe]
            subst hTe
            simp only [Bool.true_and, Bool.not_eq_true']
            exact haddT
          · exact h'
        exact ih hmem' (fun p hp hep => hw p (List.mem_cons_of_mem _ hp) hep) haddT


/-! ## Claim C6: trailing newline of the rendered document -/

/-- Number of newline characters at the very end of a string. -/
def trailingNewlineCount (s : String) : Nat :=
  (s.data.reverse.takeWhile (fun c => c == '\n')).length

/-- C6 counterexample: with an empty preserved tail the renderer emits the
delimiter line followed by a forced newline, so the output ends with two
newline characters, refuting "ends with exactly one trailing newline, never
two (including when the tail itself ends with newlines or blank lines)". -/
theorem c6_counterexample :
    trailingNewlineCount (generate_markdown_content [] [] none (some "")) = 2 := by
  decide

/-- C6 (amended): for every entries list and every present preserved tail that
is nonempty and does not end with a newline, the rendered document ends with
exactly one trailing newline character. -/
theorem c6_amended (current : List Todo) (existing : List (String × Bool))
    (mid : Option String) (notes : String) (h1 : notes.data ≠ [])
    (h2 : notes.data.getLast? ≠ some '\n') :
    trailingNewlineCount
      (generate_markdown_content current existing mid (some notes)) = 1 := by
  rw [generate_some_notes_eq, if_neg h2]
  obtain ⟨c, t, hrev⟩ : ∃ c t, notes.data.reverse = c :: t := by
    cases hr : notes.data.reverse with
    | nil => exact absurd (by simpa using hr) h1
    | cons c t => exact ⟨c, t, rfl⟩
  have hlast : notes.data.getLast? = some c := by
    rw [← List.head?_reverse, hrev]
    rfl
  have hc : (c == '\n') = false := by
    rw [beq_eq_false_iff_ne]
    intro he
    exact h2 (by rw [hlast, he])
  unfold trailingNewlineCount
  rw [data_append, data_append, data_append]
  rw [List.reverse_append, List.reverse_append, List.reverse_append, hrev]
  simp [List.takeWhile, hc]

/-- C6 witness. -/
theorem c6_amended_witness :
    "note".data ≠ [] ∧ "note".data.getLast? ≠ some '\n' ∧
      trailingNewlineCount (generate_markdown_content [] [] none (some "note")) = 1 :=
  ⟨by decide, by decide, c6_amended [] [] none "note" (by decide) (by decide)⟩

/-! ## Claim C8: message-id validation -/

/-- C8: `validate_message_id` accepts exactly the strings that split at the
dot separator into two parts, each parsing as an unsigned 64-bit integer, and
the four concrete examples of the specification evaluate as stated. -/
theorem c8_validate_spec :
    (∀ mid : String, validate_message_id mid = true ↔
      ∃ a b, rustSplitChar mid '.' = [a, b] ∧
        (rustParseU64 a).isSome = true ∧ (rustParseU64 b).isSome = true) ∧
    validate_message_id "1234567890.123456" = true ∧
    validate_message_id "abc.123" = false ∧
    validate_message_id "123" = false ∧
    validate_message_id "" = false := by
  refine ⟨?_, by decide, by decide, by decide, by decide⟩
  intro mid
  unfold validate_message_id
  cases h : rustSplitChar mid '.' with
  | nil => simp
  | cons a rest =>
    cases rest with
    | nil => simp
    | cons b rest2 =>
      cases rest2 with
      | nil =>
        simp only [Bool.and_eq_true]
        constructor
        · rintro ⟨ha, hb⟩
          exact ⟨a, b, rfl, ha, hb⟩
        · rintro ⟨a', b', heq, ha, hb⟩
          obtain ⟨rfl, rfl⟩ : a = a' ∧ b = b' := by
            simpa using heq
          exact ⟨ha, hb⟩
      | cons c rest3 => simp

/-! ## Claim C5: order of the completed section -/

/-- C5 counterexample: with prior entries `[("A", active), ("B", completed)]`
and an empty fetch, the newly-finished line for `A` (index 7) precedes the
preserved completed line for `B` (index 8), refuting the claimed grouping
(current-completed, then preserved, then newly-finished). -/
theorem c5_counterexample :
    (rustLines (generate_markdown_content [] [("A", false), ("B", true)] none none)).get? 7 =
      some "- [x] A *(marked as finished)*" ∧
    (rustLines (generate_markdown_content [] [("A", false), ("B", true)] none none)).get? 8 =
      some "- [x] B" := by
  decide

/-- C5 (amended): the completed section lists the current-fetch completed
entries first (in fetch order), followed by the prior entries in
prior-document order, each rendered preserved or newly-finished according to
its own state — preserved and newly-finished lines interleave in prior order
instead of forming two separate groups. -/
theorem c5_amended (current : List Todo) (existing : List (String × Bool))
    (hc : ∀ t ∈ current, LineClean t.content) (he : ∀ p ∈ existing, LineClean p.1) :
    rustLines (generate_markdown_content current existing none none) =
      ["## Active Todos", ""] ++ activeLines current ++ ["", "## Completed Todos", ""]
        ++ ((current.filter (fun t => t.checked)).map (fun t => fmtDoneLine t.content))
        ++ (priorEmit (current.map (·.content)) existing
            (((current.filter (fun t => t.checked)).map (·.content)).reverse)).map priorLine
        ++ (if (completedLines current existing).isEmpty then ["_No completed todos yet._", ""]
            else []) := by
  rw [rustLines_generate_none current existing hc he]
  simp [renderedLines, completedLines, List.append_assoc]

/-- C5 witness. -/
theorem c5_amended_witness :
    (∀ t ∈ [Todo.mk "C" false, Todo.mk "D" true], LineClean t.content) ∧
    (∀ p ∈ [("A", false), ("B", true)], LineClean p.1) ∧
    rustLines (generate_markdown_content [Todo.mk "C" false, Todo.mk "D" true]
        [("A", false), ("B", true)] none none) =
      ["## Active Todos", "", "- [ ] C", "", "## Completed Todos", "", "- [x] D",
        "- [x] A *(marked as finished)*", "- [x] B"] :=
  ⟨by decide, by decide,
    (c5_amended [Todo.mk "C" false, Todo.mk "D" true] [("A", false), ("B", true)]
        (by decide) (by decide)).trans (by decide)⟩

/-! ## Claim C7: ignored lines -/

/-- C7 counterexample: a line beginning with `:todo:` is not ignored — the
parser's legacy-format branch turns it into an active entry, refuting "a line
beginning with `:todo:` or `:todo_done:` contributes no entry". -/
theorem c7_counterexample :
    (parse_existing_markdown ":todo: Buy milk").1 = [("Buy milk", false)] := by
  decide

theorem linesGo_no_newline (l : List Char) (h : '\n' ∉ l) :
    linesGo [] l = if l.isEmpty then [] else [l] := by
  suffices hgen : ∀ acc, linesGo acc l =
      if (acc.reverse ++ l).isEmpty then [] else [acc.reverse ++ l] by
    simpa using hgen []
  induction l with
  | nil => intro acc; simp [linesGo]
  | cons c rest ih =>
    intro acc
    have hc : c ≠ '\n' := fun hx => h (hx ▸ List.mem_cons_self c rest)
    rw [linesGo_other hc]
    rw [ih (fun hx => h (List.mem_cons_of_mem _ hx)) (c :: acc)]
    simp

theorem rustLines_no_newline (s : String) (h : '\n' ∉ s.data) :
    rustLines s = if s = "" then [] else [s] := by
  unfold rustLines
  rw [linesGo_no_newline s.data h]
  by_cases hs : s = ""
  · subst hs
    simp
  · have : s.data.isEmpty = false := by
      cases hd : s.data with
      | nil => exact absurd (strExt (by simp [hd])) hs
      | cons c t => simp [hd]
    simp [this, hs]

/-- C7 (amended): a line scanned outside tail mode that matches neither the
checkbox grammars (`- [ ]`, `- [x]`), nor the delimiter `---`, nor the legacy
emoji grammars (`:todo:`, `:todo_done:`) yields no entry; legacy emoji lines,
contrary to the claim's example, do yield entries. -/
theorem c7_amended (line : String)
    (h1 : '\n' ∉ line.data)
    (h2 : rustTrim line ≠ "---")
    (h3 : rustStartsWith (rustTrim line) "- [ ]" = false)
    (h4 : rustStartsWith (rustTrim line) "- [x]" = false)
    (h5 : rustStartsWith (rustTrim line) ":todo:" = false)
    (h6 : rustStartsWith (rustTrim line) ":todo_done:" = false) :
    parse_existing_markdown line = ([], none) := by
  unfold parse_existing_markdown
  rw [rustLines_no_newline line h1]
  by_cases hs : line = ""
  · simp [hs, parseLoop]
  · simp [hs, parseLoop, h2, h3, h4, h5, h6]

/-- C7 witness. -/
theorem c7_amended_witness :
    ('\n' ∉ "## Active Todos".data) ∧
      parse_existing_markdown "## Active Todos" = ([], none) :=
  ⟨by decide, c7_amended "## Active Todos" (by decide) (by decide) (by decide) (by decide)
    (by decide) (by decide)⟩


/-! ## Claim C1: mutual exclusivity of the sections -/

/-- A well-formed entry text: newline- and CR-free, and not itself ending
with the annotation marker. -/
def EntryClean (s : String) : Prop :=
  LineClean s ∧ rustEndsWith s "*(marked as finished)*" = false

instance : DecidablePred EntryClean := fun s => by unfold EntryClean; infer_instance

/-- C1 counterexample: a prior entry recorded as completed whose text is
fetched as *active* in the current fetch is rendered both as an unchecked
line in the Active section and as a checked line in the Completed section
(the preserved-completed branch does not consult the current fetch). -/
theorem c1_counterexample :
    fmtActiveLine "Review code" ∈ rustLines (generate_markdown_content
        [Todo.mk "Review code" false] [("Review code", true)] none none) ∧
    fmtDoneLine "Review code" ∈ rustLines (generate_markdown_content
        [Todo.mk "Review code" false] [("Review code", true)] none none) := by
  decide

/-- C1 (amended): the mutual exclusivity holds provided no prior entry
recorded as completed has its text fetched as active in the current fetch
(and the current fetch contains no same-text active/completed duplicate
pair); a prior completed entry whose text is fetched as active is otherwise
additionally emitted as a completed line. -/
theorem c1_amended (current : List Todo) (existing : List (String × Bool))
    (hc : ∀ t ∈ current, EntryClean t.content)
    (he : ∀ p ∈ existing, EntryClean p.1)
    (hdup : ∀ t₁ ∈ current, ∀ t₂ ∈ current, t₁.content = t₂.content → t₁.checked = t₂.checked)
    (hprior : ∀ p ∈ existing, p.2 = true →
      p.1 ∉ (current.filter (fun t => !t.checked)).map (·.content)) :
    ∀ T : String, rustEndsWith T "*(marked as finished)*" = false →
      ¬(fmtActiveLine T ∈ rustLines (generate_markdown_content current existing none none) ∧
        (fmtDoneLine T ∈ rustLines (generate_markdown_content current existing none none) ∨
          fmtFinishedLine T ∈
            rustLines (generate_markdown_content current existing none none))) := by
  intro T hT hAND
  obtain ⟨hA, hCC⟩ := hAND
  rw [rustLines_generate_none current existing (fun t ht => (hc t ht).1)
    (fun p hp => (he p hp).1)] at hA hCC
  obtain ⟨t₁, ht₁, ht₁c, hTeq⟩ : ∃ t₁ ∈ current, t₁.checked = false ∧ t₁.content = T := by
    rcases mem_renderedLines_cases hA with h | h | h | h | h | h | h | h
    · exact absurd h (fmtActive_ne_headerA T)
    · exact absurd h (fmtActive_ne_empty T)
    · exact absurd h (fmtActive_ne_headerC T)
    · exact absurd h (fmtActive_ne_phA T)
    · exact absurd h (fmtActive_ne_phC T)
    · obtain ⟨t, htm, htc, heq⟩ := h
      exact ⟨t, htm, htc, (fmtActiveLine_inj heq).symm⟩
    · obtain ⟨t, htm, htc, heq⟩ := h
      exact absurd heq (fmtActive_ne_fmtDone T t.content)
    · obtain ⟨e, hem, heq⟩ := h
      obtain ⟨te, be⟩ := e
      cases be
      · simp only [priorLine] at heq
        exact absurd heq (fmtActive_ne_fmtDone T te)
      · simp only [priorLine] at heq
        exact absurd heq (fmtActive_ne_fmtFinished T te)
  have hTmem : T ∈ (current.filter (fun t => !t.checked)).map (·.content) :=
    List.mem_map.mpr ⟨t₁, List.mem_filter.mpr ⟨ht₁, by simp [ht₁c]⟩, hTeq⟩
  have hTcc : containsStr (current.map (·.content)) T = true := by
    rw [containsStr_eq_true_iff]
    exact List.mem_map.mpr ⟨t₁, ht₁, hTeq⟩
  rcases hCC with hD | hF
  · rcases mem_renderedLines_cases hD with h | h | h | h | h | h | h | h
    · exact absurd h (fmtDone_ne_headerA T)
    · exact absurd h (fmtDone_ne_empty T)
    · exact absurd h (fmtDone_ne_headerC T)
    · exact absurd h (fmtDone_ne_phA T)
    · exact absurd h (fmtDone_ne_phC T)
    · obtain ⟨t, htm, htc, heq⟩ := h
      exact absurd heq.symm (fmtActive_ne_fmtDone t.content T)
    · obtain ⟨t₂, ht₂, ht₂c, heq⟩ := h
      have hceq : T = t₂.content := fmtDoneLine_inj heq
      have hck := hdup t₁ ht₁ t₂ ht₂ (hTeq.trans hceq)
      rw [ht₁c, ht₂c] at hck
      exact Bool.noConfusion hck
    · obtain ⟨e, hem, heq⟩ := h
      obtain ⟨te, be⟩ := e
      cases be
      · simp only [priorLine] at heq
        have hTe : T = te := fmtDoneLine_inj heq
        rcases priorEmit_mem hem with ⟨-, hmem⟩ | ⟨hb, -, -⟩
        · rw [hTe] at hTmem
          exact absurd hTmem (hprior (te, true) hmem rfl)
        · simp at hb
      · simp only [priorLine] at heq
        have hx := fmtDone_eq_finished heq
        rw [hx, endsWith_annot te] at hT
        exact Bool.noConfusion hT
  · rcases mem_renderedLines_cases hF with h | h | h | h | h | h | h | h
    · exact absurd h (fmtFinished_ne_lit (by decide))
    · exact absurd h (fmtFinished_ne_lit (by decide))
    · exact absurd h (fmtFinished_ne_lit (by decide))
    · exact absurd h (fmtFinished_ne_lit (by decide))
    · exact absurd h (fmtFinished_ne_lit (by decide))
    · obtain ⟨t, htm, htc, heq⟩ := h
      exact absurd heq.symm (fmtActive_ne_fmtFinished t.content T)
    · obtain ⟨t₂, ht₂, ht₂c, heq⟩ := h
      have hx := fmtDone_eq_finished heq.symm
      have hs := (hc t₂ ht₂).2
      rw [hx, endsWith_annot T] at hs
      exact Bool.noConfusion hs
    · obtain ⟨e, hem, heq⟩ := h
      obtain ⟨te, be⟩ := e
      cases be
      · simp only [priorLine] at heq
        have hx := fmtDone_eq_finished heq.symm
        rcases priorEmit_mem hem with ⟨-, hmem⟩ | ⟨hb, -, -⟩
        · have hs := (he (te, true) hmem).2
          rw [hx, endsWith_annot T] at hs
          exact Bool.noConfusion hs
        · simp at hb
      · simp only [priorLine] at heq
        have hTe : T = te := fmtFinishedLine_inj heq
        rcases priorEmit_mem hem with ⟨hb, -⟩ | ⟨-, -, hcc0⟩
        · simp at hb
        · rw [← hTe, hTcc] at hcc0
          exact Bool.noConfusion hcc0

/-- C1 witness. -/
theorem c1_amended_witness :
    (∀ t ∈ [Todo.mk "A" false, Todo.mk "B" true], EntryClean t.content) ∧
    (∀ p ∈ [("C", true), ("D", false)], EntryClean p.1) ∧
    (∀ T : String, rustEndsWith T "*(marked as finished)*" = false →
      ¬(fmtActiveLine T ∈ rustLines (generate_markdown_content
          [Todo.mk "A" false, Todo.mk "B" true] [("C", true), ("D", false)] none none) ∧
        (fmtDoneLine T ∈ rustLines (generate_markdown_content
            [Todo.mk "A" false, Todo.mk "B" true] [("C", true), ("D", false)] none none) ∨
          fmtFinishedLine T ∈ rustLines (generate_markdown_content
            [Todo.mk "A" false, Todo.mk "B" true] [("C", true), ("D", false)] none none)))) :=
  ⟨by decide, by decide,
    c1_amended [Todo.mk "A" false, Todo.mk "B" true] [("C", true), ("D", false)]
      (by decide) (by decide) (by decide) (by decide)⟩


/-! ## Claim C4: duplicate prior entries and the newly-finished annotation -/

theorem count_priorLine_finished {E : List (String × Bool)} {T : String}
    (hsuf : ∀ e ∈ E, rustEndsWith e.1 "*(marked as finished)*" = false) :
    (E.map priorLine).count (fmtFinishedLine T) = E.count (T, true) := by
  induction E with
  | nil => simp
  | cons e rest ih =>
    obtain ⟨te, be⟩ := e
    rw [List.map_cons, List.count_cons, List.count_cons,
      ih (fun x hx => hsuf x (List.mem_cons_of_mem _ hx))]
    congr 1
    cases be
    · have h1 : (priorLine (te, false) == fmtFinishedLine T) = false := by
        rw [beq_eq_false_iff_ne]
        intro heq
        simp only [priorLine] at heq
        have hx := fmtDone_eq_finished heq
        have hs := hsuf (te, false) (List.mem_cons_self _ _)
        rw [hx, endsWith_annot T] at hs
        exact Bool.noConfusion hs
      have h2 : ((te, false) == (T, true)) = false := by
        rw [beq_eq_false_iff_ne]
        intro he
        rw [Prod.mk.injEq] at he
        exact Bool.noConfusion he.2
      rw [h1, h2]
    · by_cases hte : te = T
      · subst hte
        have h1 : (priorLine (te, true) == fmtFinishedLine te) = true := by
          simp [priorLine]
        have h2 : ((te, true) == (te, true)) = true := by simp
        rw [h1, h2]
      · have h1 : (priorLine (te, true) == fmtFinishedLine T) = false := by
          rw [beq_eq_false_iff_ne]
          intro heq
          simp only [priorLine] at heq
          exact hte (fmtFinishedLine_inj heq)
        have h2 : ((te, true) == (T, true)) = false := by
          rw [beq_eq_false_iff_ne]
          simp [hte]
        rw [h1, h2]

/-- The newly-finished entry for `T` is emitted once for every prior `(T,
active)` entry when `T` is absent from the current contents and never
recorded completed in the prior document. -/
theorem priorEmit_count_annot {cc : List String} {ex : List (String × Bool)}
    {added : List String} {T : String}
    (hccT : containsStr cc T = false)
    (hw : ∀ p ∈ ex, p.1 = T → p.2 = false)
    (haddT : containsStr added T = false) :
    (priorEmit cc ex added).count (T, true) = ex.count (T, false) := by
  induction ex generalizing added with
  | nil => simp [priorEmit]
  | cons p rest ih =>
    obtain ⟨ec, w⟩ := p
    rw [List.count_cons]
    by_cases h1 : (w && !containsStr added ec) = true
    · rw [priorEmit, if_pos h1, List.count_cons]
      have hw1 : w = true := (Bool.and_eq_true_iff.mp h1).1
      have hne : ec ≠ T := by
        intro he
        have hx := hw (ec, w) (List.mem_cons_self _ _) he
        rw [hw1] at hx
        exact Bool.noConfusion hx
      have hb1 : ((ec, false) == (T, true)) = false := by
        rw [beq_eq_false_iff_ne]
        intro he
        rw [Prod.mk.injEq] at he
        exact Bool.noConfusion he.2
      have hb2 : ((ec, w) == (T, false)) = false := by
        rw [beq_eq_false_iff_ne]
        intro he
        rw [Prod.mk.injEq] at he
        exact hne he.1
      rw [hb1, hb2]
      simp only [Bool.false_eq_true, if_false, add_zero]
      refine ih (fun p hp hep => hw p (List.mem_cons_of_mem _ hp) hep) ?_
      simp only [containsStr, Bool.or_eq_false_iff]
      exact ⟨by simpa using hne, haddT⟩
    · by_cases h2 : (!w && !containsStr cc ec && !containsStr added ec) = true
      · rw [priorEmit, if_neg h1, if_pos h2, List.count_cons]
        have hw0 : w = false := by
          have hx := (Bool.and_eq_true_iff.mp (Bool.and_eq_true_iff.mp h2).1).1
          cases w
          · rfl
          · exact Bool.noConfusion hx
        by_cases hte : ec = T
        · subst hte
          have hb1 : ((ec, true) == (ec, true)) = true := by simp
          have hb2 : ((ec, w) == (ec, false)) = true := by simp [hw0]
          rw [hb1, hb2, ih (fun p hp hep => hw p (List.mem_cons_of_mem _ hp) hep) haddT]
        · have hb1 : ((ec, true) == (T, true)) = false := by
            rw [beq_eq_false_iff_ne]
            simp [hte]
          have hb2 : ((ec, w) == (T, false)) = false := by
            rw [beq_eq_false_iff_ne]
            simp [hte]
          rw [hb1, hb2, ih (fun p hp hep => hw p (List.mem_cons_of_mem _ hp) hep) haddT]
      · rw [priorEmit, if_neg h1, if_neg h2]
        have hb : ((ec, w) == (T, false)) = false := by
          rw [beq_eq_false_iff_ne]
          intro he
          rw [Prod.mk.injEq] at he
          obtain ⟨he1, he2⟩ := he
          apply h2
          subst he1
          rw [he2]
          simp only [Bool.not_false, Bool.true_and, Bool.and_eq_true, Bool.not_eq_true']
          exact ⟨hccT, haddT⟩
        rw [hb]
        simp only [Bool.false_eq_true, if_false, add_zero]
        exact ih (fun p hp hep => hw p (List.mem_cons_of_mem _ hp) hep) haddT

/-- C4 counterexample: two identical prior active entries, both absent from
the current fetch, produce the annotated newly-finished line twice, not once
(the newly-finished branch does not mark the text handled). -/
theorem c4_counterexample :
    (rustLines (generate_markdown_content [] [("A", false), ("A", false)] none none)).count
      (fmtFinishedLine "A") = 2 := by
  decide

/-- C4 (amended): the newly-finished branch does not mark its text handled,
so the annotated line for `T` appears once per qualifying duplicate prior
entry: its number of occurrences equals the number of prior `(T, active)`
entries (in particular twice for two duplicates), provided `T` is absent from
the current fetch and never recorded completed in the prior document. -/
theorem c4_amended (current : List Todo) (existing : List (String × Bool)) (T : String)
    (hc : ∀ t ∈ current, EntryClean t.content)
    (he : ∀ p ∈ existing, EntryClean p.1)
    (hTnc : T ∉ current.map (·.content))
    (hw : ∀ p ∈ existing, p.1 = T → p.2 = false) :
    (rustLines (generate_markdown_content current existing none none)).count
        (fmtFinishedLine T) =
      existing.count (T, false) := by
  rw [rustLines_generate_none current existing (fun t ht => (hc t ht).1)
    (fun p hp => (he p hp).1)]
  unfold renderedLines completedLines
  rw [List.count_append, List.count_append, List.count_append, List.count_append,
    List.count_append]
  have k1 : (["## Active Todos", ""] : List String).count (fmtFinishedLine T) = 0 := by
    rw [List.count_eq_zero]
    intro hmem
    simp only [List.mem_cons, List.not_mem_nil, or_false] at hmem
    rcases hmem with h | h
    · exact fmtFinished_ne_lit (by decide) h
    · exact fmtFinished_ne_lit (by decide) h
  have k2 : (activeLines current).count (fmtFinishedLine T) = 0 := by
    rw [List.count_eq_zero]
    intro hmem
    simp only [activeLines] at hmem
    split at hmem
    · simp only [List.mem_cons, List.not_mem_nil, or_false] at hmem
      rcases hmem with h | h
      · exact fmtFinished_ne_lit (by decide) h
      · exact fmtFinished_ne_lit (by decide) h
    · rcases List.mem_map.mp hmem with ⟨t, ht, heq⟩
      exact fmtActive_ne_fmtFinished t.content T heq
  have k3 : (["", "## Completed Todos", ""] : List String).count (fmtFinishedLine T) = 0 := by
    rw [List.count_eq_zero]
    intro hmem
    simp only [List.mem_cons, List.not_mem_nil, or_false] at hmem
    rcases hmem with h | h | h
    · exact fmtFinished_ne_lit (by decide) h
    · exact fmtFinished_ne_lit (by decide) h
    · exact fmtFinished_ne_lit (by decide) h
  have k4 : ((current.filter (fun t => t.checked)).map
      (fun t => fmtDoneLine t.content)).count (fmtFinishedLine T) = 0 := by
    rw [List.count_eq_zero]
    intro hmem
    rcases List.mem_map.mp hmem with ⟨t, ht, heq⟩
    have hx := fmtDone_eq_finished heq
    have hs := (hc t (List.mem_of_mem_filter ht)).2
    rw [hx, endsWith_annot T] at hs
    exact Bool.noConfusion hs
  have k6 : (if (((current.filter (fun t => t.checked)).map (fun t => fmtDoneLine t.content))
        ++ (priorEmit (current.map (·.content)) existing
          (((current.filter (fun t => t.checked)).map (·.content)).reverse)).map
            priorLine).isEmpty = true
      then ["_No completed todos yet._", ""] else []).count (fmtFinishedLine T) = 0 := by
    rw [List.count_eq_zero]
    intro hmem
    split at hmem
    · simp only [List.mem_cons, List.not_mem_nil, or_false] at hmem
      rcases hmem with h | h
      · exact fmtFinished_ne_lit (by decide) h
      · exact fmtFinished_ne_lit (by decide) h
    · simp at hmem
  have k5 : ((priorEmit (current.map (·.content)) existing
      (((current.filter (fun t => t.checked)).map (·.content)).reverse)).map
        priorLine).count (fmtFinishedLine T) = existing.count (T, false) := by
    rw [count_priorLine_finished]
    · refine priorEmit_count_annot ?_ hw ?_
      · rw [containsStr_eq_false_iff]
        exact hTnc
      · rw [containsStr_eq_false_iff]
        intro hmem
        rw [List.mem_reverse] at hmem
        rcases List.mem_map.mp hmem with ⟨t, ht, heq⟩
        exact hTnc (List.mem_map.mpr ⟨t, List.mem_of_mem_filter ht, heq⟩)
    · intro e hem
      rcases priorEmit_mem hem with ⟨-, hmem⟩ | ⟨-, hmem, -⟩
      · exact (he (e.1, true) hmem).2
      · exact (he (e.1, false) hmem).2
  rw [k1, k2, k3, k4, k5, k6]
  omega

/-- C4 witness: two duplicate prior active entries yield the annotated line
exactly twice. -/
theorem c4_amended_witness :
    (∀ p ∈ [("A", false), ("A", false)], EntryClean p.1) ∧
    ([("A", false), ("A", false)] : List (String × Bool)).count ("A", false) = 2 ∧
    (rustLines (generate_markdown_content [] [("A", false), ("A", false)] none none)).count
      (fmtFinishedLine "A") = 2 :=
  ⟨by decide, by decide,
    (c4_amended [] [("A", false), ("A", false)] "A" (by decide) (by decide) (by decide)
        (by decide)).trans (by decide)⟩


/-! ## Claim C10: totality of the parser (guarded byte slices) -/

theorem isPrefixL_iff (p l : List Char) : isPrefixL p l = true ↔ ∃ r, l = p ++ r := by
  induction p generalizing l with
  | nil => simp [isPrefixL]
  | cons a as ih =>
    cases l with
    | nil =>
      simp [isPrefixL]
    | cons b bs =>
      simp only [isPrefixL, Bool.and_eq_true, beq_iff_eq, ih]
      constructor
      · rintro ⟨rfl, r, rfl⟩
        exact ⟨r, rfl⟩
      · rintro ⟨r, hr⟩
        rw [List.cons_append] at hr
        injection hr with h1 h2
        exact ⟨h1.symm, r, h2⟩

theorem byteDrop_ascii (p r : List Char) (h : ∀ c ∈ p, charUtf8Size c = 1) :
    byteDrop (p ++ r) p.length = some r := by
  induction p with
  | nil => simp [byteDrop]
  | cons c cs ih =>
    have hc : charUtf8Size c = 1 := h c (List.mem_cons_self _ _)
    show byteDrop (c :: (cs ++ r)) (cs.length + 1) = some r
    rw [byteDrop]
    rw [hc]
    simp only [Nat.add_sub_cancel, if_pos (by omega : 1 ≤ cs.length + 1)]
    exact ih (fun x hx => h x (List.mem_cons_of_mem _ hx))

theorem slice_of_startsWith {s p : String} (hp : ∀ c ∈ p.data, charUtf8Size c = 1)
    (h : rustStartsWith s p = true) :
    byteDrop s.data p.data.length = some (s.data.drop p.data.length) ∧
      charDrop s p.data.length = ⟨s.data.drop p.data.length⟩ := by
  obtain ⟨r, hr⟩ := (isPrefixL_iff p.data s.data).mp h
  constructor
  · rw [hr, byteDrop_ascii p.data r hp, List.drop_left]
  · rfl

/-- C10: the parser is total — on every input string the byte-level slice
model never hits a panic: each slice `trimmed[5..]`, `trimmed[6..]`,
`trimmed[11..]` is guarded by a `starts_with` check on an ASCII prefix of
exactly that byte length, so the checked parser always returns the same
result as the total parser. -/
theorem c10_parser_total (content : String) :
    parse_existing_markdown_checked content = some (parse_existing_markdown content) := by
  suffices hloop : ∀ (L : List String) (td : List (String × Bool)) (b : Bool)
      (nt : List String), parseLoopChecked L td b nt = some (parseLoop L td b nt) by
    unfold parse_existing_markdown_checked parse_existing_markdown
    rw [hloop]
  intro L
  induction L with
  | nil => intro td b nt; rfl
  | cons line rest ih =>
    intro td b nt
    by_cases hd : rustTrim line = "---"
    · simp only [parseLoop, parseLoopChecked, if_pos hd]
      exact ih _ _ _
    · by_cases hb : b = true
      · simp only [parseLoop, parseLoopChecked, if_neg hd, hb, if_true]
        exact ih _ _ _
      · have hb' : b = false := by
          cases b
          · rfl
          · exact absurd rfl hb
        subst hb'
        cases h1 : rustStartsWith (rustTrim line) "- [ ]" with
        | true =>
          obtain ⟨hbyte, hchar⟩ := slice_of_startsWith (p := "- [ ]") (by decide) h1
          have h5 : ("- [ ]" : String).data.length = 5 := by decide
          rw [h5] at hbyte hchar
          simp only [parseLoop, parseLoopChecked, if_neg hd, Bool.false_eq_true, if_false,
            h1, if_true, hbyte, hchar]
          exact ih _ _ _
        | false =>
          cases h2 : rustStartsWith (rustTrim line) "- [x]" with
          | true =>
            obtain ⟨hbyte, hchar⟩ := slice_of_startsWith (p := "- [x]") (by decide) h2
            have h5 : ("- [x]" : String).data.length = 5 := by decide
            rw [h5] at hbyte hchar
            simp only [parseLoop, parseLoopChecked, if_neg hd, Bool.false_eq_true, if_false,
              h1, h2, if_true, hbyte, hchar]
            exact ih _ _ _
          | false =>
            cases h3 : rustStartsWith (rustTrim line) ":todo:" with
            | true =>
              obtain ⟨hbyte, hchar⟩ := slice_of_startsWith (p := ":todo:") (by decide) h3
              have h6 : (":todo:" : String).data.length = 6 := by decide
              rw [h6] at hbyte hchar
              simp only [parseLoop, parseLoopChecked, if_neg hd, Bool.false_eq_true, if_false,
                h1, h2, h3, if_true, hbyte, hchar]
              exact ih _ _ _
            | false =>
              cases h4 : rustStartsWith (rustTrim line) ":todo_done:" with
              | true =>
                obtain ⟨hbyte, hchar⟩ := slice_of_startsWith (p := ":todo_done:") (by decide) h4
                have h11 : (":todo_done:" : String).data.length = 11 := by decide
                rw [h11] at hbyte hchar
                simp only [parseLoop, parseLoopChecked, if_neg hd, Bool.false_eq_true,
                  if_false, h1, h2, h3, h4, if_true, hbyte, hchar]
                exact ih _ _ _
              | false =>
                simp only [parseLoop, parseLoopChecked, if_neg hd, Bool.false_eq_true,
                  if_false, h1, h2, h3, h4]
                exact ih _ _ _


/-! ## Claim C3: preservation of the tail -/

/-- C3 counterexample: in the document `---\na\n---\nb` the second `---`
line lies inside the tail, but the parser's delimiter check runs *before*
the tail-capture branch, so the line is dropped: the captured tail is
`a\nb`, not the original `a\n---\nb`. -/
theorem c3_counterexample :
    (parse_existing_markdown "---\na\n---\nb").2 = some "a\nb" ∧
      "a\nb" ≠ "a\n---\nb" := by
  decide

/-- The per-line contribution of a non-delimiter line scanned outside tail
mode (mirrors the branch structure of `parseLoop`). -/
def lineEntries (line : String) : List (String × Bool) :=
  let trimmed := rustTrim line
  if rustStartsWith trimmed "- [ ]" then [(rustTrim (charDrop trimmed 5), false)]
  else if rustStartsWith trimmed "- [x]" then
    let c0 := rustTrim (charDrop trimmed 5)
    let c := if rustEndsWith c0 "*(marked as finished)*" then
        rustTrim (rustTrimEndMatches c0 "*(marked as finished)*")
      else c0
    [(c, true)]
  else if rustStartsWith trimmed ":todo:" then [(rustTrim (charDrop trimmed 6), false)]
  else if rustStartsWith trimmed ":todo_done:" then
    let c0 := rustTrim (charDrop trimmed 11)
    let c := if rustEndsWith c0 "*(marked as finished)*" then
        rustTrim (rustTrimEndMatches c0 "*(marked as finished)*")
      else c0
    [(c, true)]
  else []

/-- The entries contributed by a list of non-delimiter lines. -/
def entriesOfLines : List String → List (String × Bool)
  | [] => []
  | l :: rest => lineEntries l ++ entriesOfLines rest

theorem parseLoop_cons_delim {x : String} (hx : rustTrim x = "---")
    (rest : List String) (td : List (String × Bool)) (b : Bool) (nt : List String) :
    parseLoop (x :: rest) td b nt = parseLoop rest td true nt := by
  simp only [parseLoop, if_pos hx]

theorem parseLoop_cons_notes {x : String} (hx : rustTrim x ≠ "---")
    (rest : List String) (td : List (String × Bool)) (nt : List String) :
    parseLoop (x :: rest) td true nt = parseLoop rest td true (nt ++ [x]) := by
  simp only [parseLoop, if_neg hx, if_true]

theorem parseLoop_cons_entry {x : String} (hx : rustTrim x ≠ "---")
    (rest : List String) (td : List (String × Bool)) (nt : List String) :
    parseLoop (x :: rest) td false nt = parseLoop rest (td ++ lineEntries x) false nt := by
  cases h1 : rustStartsWith (rustTrim x) "- [ ]" with
  | true =>
    simp only [parseLoop, lineEntries, if_neg hx, Bool.false_eq_true, if_false, h1, if_true]
  | false =>
    cases h2 : rustStartsWith (rustTrim x) "- [x]" with
    | true =>
      simp only [parseLoop, lineEntries, if_neg hx, Bool.false_eq_true, if_false, h1, h2,
        if_true]
    | false =>
      cases h3 : rustStartsWith (rustTrim x) ":todo:" with
      | true =>
        simp only [parseLoop, lineEntries, if_neg hx, Bool.false_eq_true, if_false, h1, h2,
          h3, if_true]
      | false =>
        cases h4 : rustStartsWith (rustTrim x) ":todo_done:" with
        | true =>
          simp only [parseLoop, lineEntries, if_neg hx, Bool.false_eq_true, if_false, h1,
            h2, h3, h4, if_true]
        | false =>
          simp only [parseLoop, lineEntries, if_neg hx, Bool.false_eq_true, if_false, h1,
            h2, h3, h4, List.append_nil]

theorem parseLoop_entries (L : List String) (hL : ∀ l ∈ L, rustTrim l ≠ "---") :
    ∀ (rest : List String) (td : List (String × Bool)) (nt : List String),
    parseLoop (L ++ rest) td false nt = parseLoop rest (td ++ entriesOfLines L) false nt := by
  induction L with
  | nil => intro rest td nt; simp [entriesOfLines]
  | cons x xs ih =>
    intro rest td nt
    rw [List.cons_append, parseLoop_cons_entry (hL x (List.mem_cons_self _ _)),
      ih (fun l hl => hL l (List.mem_cons_of_mem _ hl))]
    simp [entriesOfLines, List.append_assoc]

theorem parseLoop_notes_tail (L : List String) (hL : ∀ l ∈ L, rustTrim l ≠ "---") :
    ∀ (td : List (String × Bool)) (nt : List String),
    parseLoop L td true nt = (td, nt ++ L) := by
  induction L with
  | nil => intro td nt; simp [parseLoop]
  | cons x xs ih =>
    intro td nt
    rw [parseLoop_cons_notes (hL x (List.mem_cons_self _ _)),
      ih (fun l hl => hL l (List.mem_cons_of_mem _ hl))]
    simp

theorem joinLines_eq_intercalate (L : List String) (h : L ≠ []) :
    joinLines L = strIntercalate "\n" L ++ "\n" := by
  induction L with
  | nil => exact absurd rfl h
  | cons x xs ih =>
    cases xs with
    | nil => simp [joinLines_cons, joinLines_nil, strIntercalate, strAppend_empty]
    | cons y ys =>
      rw [joinLines_cons, ih (by simp)]
      show _ = (x ++ "\n" ++ strIntercalate "\n" (y :: ys)) ++ "\n"
      simp [strAppend_assoc]

theorem getLast?_strIntercalate {L : List String} {x : String} (hx : L.getLast? = some x)
    (hxe : x.data ≠ []) :
    (strIntercalate "\n" L).data.getLast? = x.data.getLast? := by
  induction L with
  | nil => simp at hx
  | cons y ys ih =>
    cases ys with
    | nil =>
      have : y = x := by simpa using hx
      subst this
      rfl
    | cons z zs =>
      have hx' : (z :: zs).getLast? = some x := by
        rw [← hx]
        rfl
      show ((y ++ "\n" ++ strIntercalate "\n" (z :: zs))).data.getLast? = _
      rw [data_append, List.getLast?_append, ih hx']
      have : x.data.getLast?.isSome := by
        cases hd : x.data with
        | nil => exact absurd hd hxe
        | cons c t => simp [hd]
      cases ho : x.data.getLast? with
      | none => rw [ho] at this; exact Bool.noConfusion this
      | some c => simp [ho]

/-- C3 (amended): when no line of the tail (nor of the part before the
delimiter) itself trims to the delimiter token `---`, and the tail's last
line is nonempty, the tail round-trips byte-for-byte: the parser captures
exactly the joined tail lines and the renderer re-emits the delimiter line
followed by the original tail text. -/
theorem c3_amended (pre tail : List String) (current : List Todo)
    (existing : List (String × Bool))
    (hpre : ∀ l ∈ pre, LineClean l ∧ rustTrim l ≠ "---")
    (htail : ∀ l ∈ tail, LineClean l ∧ rustTrim l ≠ "---")
    (hne : tail ≠ [])
    (hlast : ∀ x, tail.getLast? = some x → x.data ≠ []) :
    (parse_existing_markdown (joinLines (pre ++ ["---"] ++ tail))).2 =
      some (strIntercalate "\n" tail) ∧
    generate_markdown_content current existing none (some (strIntercalate "\n" tail)) =
      generate_markdown_content current existing none none ++ "---\n" ++ joinLines tail := by
  obtain ⟨le, hle⟩ : ∃ le, tail.getLast? = some le := by
    cases ht : tail.getLast? with
    | none =>
      exfalso
      apply hne
      cases tail with
      | nil => rfl
      | cons a as => simp [List.getLast?_eq_getLast] at ht
    | some le => exact ⟨le, rfl⟩
  have hleNe : le.data ≠ [] := hlast le hle
  have hleMem : le ∈ tail := List.mem_of_mem_getLast? hle
  have hlastNL : (strIntercalate "\n" tail).data.getLast? ≠ some '\n' := by
    rw [getLast?_strIntercalate hle hleNe]
    intro hcl
    exact ((htail le hleMem).1).1 (List.mem_of_mem_getLast? hcl)
  constructor
  · unfold parse_existing_markdown
    rw [rustLines_joinLines _ ?hclean]
    case hclean =>
      intro l hl
      rcases List.mem_append.mp hl with hl' | hl'
      · rcases List.mem_append.mp hl' with hl'' | hl''
        · exact (hpre l hl'').1
        · simp only [List.mem_cons, List.not_mem_nil, or_false] at hl''
          subst hl''
          decide
      · exact (htail l hl').1
    rw [List.append_assoc, parseLoop_entries pre (fun l hl => (hpre l hl).2),
      List.singleton_append, parseLoop_cons_delim (by decide),
      parseLoop_notes_tail tail (fun l hl => (htail l hl).2)]
    have htne : tail.isEmpty = false := by
      cases tail with
      | nil => exact absurd rfl hne
      | cons a as => rfl
    simp [htne]
  · rw [generate_some_notes_eq, if_neg hlastNL, joinLines_eq_intercalate tail hne,
      strAppend_assoc]

/-- C3 witness. -/
theorem c3_amended_witness :
    (∀ l ∈ ["## Active Todos", "- [ ] x"], LineClean l ∧ rustTrim l ≠ "---") ∧
    (∀ l ∈ ["# Notes", "", "keep this"], LineClean l ∧ rustTrim l ≠ "---") ∧
    ((parse_existing_markdown (joinLines (["## Active Todos", "- [ ] x"] ++ ["---"] ++
        ["# Notes", "", "keep this"]))).2 = some (strIntercalate "\n"
          ["# Notes", "", "keep this"]) ∧
      generate_markdown_content [] [] none
          (some (strIntercalate "\n" ["# Notes", "", "keep this"])) =
        generate_markdown_content [] [] none none ++ "---\n" ++
          joinLines ["# Notes", "", "keep this"]) :=
  ⟨by decide, by decide,
    c3_amended ["## Active Todos", "- [ ] x"] ["# Notes", "", "keep this"] [] []
      (by decide) (by decide) (by decide) (by decide)⟩


/-! ## Claim C9: correlation-id round trip -/

/-- C9 counterexample: on a text that (malformedly) already contains two
metadata lines, `add_slack_message_id` replaces only the first, so the result
contains two metadata lines, not exactly one. -/
theorem c9_counterexample :
    (rustLines (add_slack_message_id
        "<!-- slack_message_id: 1.1 -->\n<!-- slack_message_id: 2.2 -->"
        "123.456")).countP isMetaLine = 2 := by
  decide

theorem stripCRL_subset {l : List Char} {c : Char} (h : c ∈ stripCRL l) : c ∈ l := by
  unfold stripCRL at h
  split at h
  · exact List.dropLast_subset l h
  · exact h

theorem linesGo_chars : ∀ (l acc : List Char), (∀ c ∈ acc, c ≠ '\n') →
    ∀ x ∈ linesGo acc l, ∀ c ∈ x, (c ∈ acc ∨ c ∈ l) ∧ c ≠ '\n' := by
  intro l
  induction l with
  | nil =>
    intro acc hacc x hx c hc
    unfold linesGo at hx
    split at hx
    · simp at hx
    · simp only [List.mem_cons, List.not_mem_nil, or_false] at hx
      subst hx
      rw [List.mem_reverse] at hc
      exact ⟨Or.inl hc, hacc c hc⟩
  | cons c0 rest ih =>
    intro acc hacc x hx c hc
    by_cases h0 : c0 = '\n'
    · subst h0
      rw [linesGo_newline] at hx
      rcases List.mem_cons.mp hx with hx' | hx'
      · subst hx'
        have hc' : c ∈ acc.reverse := stripCRL_subset hc
        rw [List.mem_reverse] at hc'
        exact ⟨Or.inl hc', hacc c hc'⟩
      · have := ih [] (by simp) x hx' c hc
        rcases this with ⟨hm, hn⟩
        rcases hm with hm | hm
        · simp at hm
        · exact ⟨Or.inr (List.mem_cons_of_mem _ hm), hn⟩
    · rw [linesGo_other h0] at hx
      have hacc' : ∀ d ∈ c0 :: acc, d ≠ '\n' := by
        intro d hd
        rcases List.mem_cons.mp hd with rfl | hd'
        · exact h0
        · exact hacc d hd'
      have := ih (c0 :: acc) hacc' x hx c hc
      rcases this with ⟨hm, hn⟩
      rcases hm with hm | hm
      · rcases List.mem_cons.mp hm with rfl | hm'
        · exact ⟨Or.inr (List.mem_cons_self _ _), hn⟩
        · exact ⟨Or.inl hm', hn⟩
      · exact ⟨Or.inr (List.mem_cons_of_mem _ hm), hn⟩

/-- Lines produced by `rustLines` are newline-free, and CR-free when the
source text is CR-free. -/
theorem rustLines_clean {s : String} (h : '\r' ∉ s.data) :
    ∀ l ∈ rustLines s, LineClean l := by
  intro l hl
  unfold rustLines at hl
  rcases List.mem_map.mp hl with ⟨x, hx, rfl⟩
  have hchars := linesGo_chars s.data [] (by simp) x hx
  constructor
  · intro hc
    exact (hchars _ hc).2 rfl
  · intro hc
    rcases (hchars _ hc).1 with hm | hm
    · simp at hm
    · exact h hm

/-- Re-splitting a newline join: exact except that one trailing empty line is
absorbed by the join. -/
theorem rustLines_intercalate (L : List String) (h : ∀ l ∈ L, LineClean l) :
    rustLines (strIntercalate "\n" L) =
      if L.getLast? = some "" then L.dropLast else L := by
  induction L with
  | nil => simp [strIntercalate, rustLines_empty]
  | cons x xs ih =>
    cases xs with
    | nil =>
      show rustLines x = _
      rw [rustLines_no_newline x (h x (List.mem_cons_self _ _)).1]
      by_cases hx : x = ""
      · subst hx
        simp
      · simp [hx]
    | cons y ys =>
      have hx : LineClean x := h x (List.mem_cons_self _ _)
      show rustLines (x ++ "\n" ++ strIntercalate "\n" (y :: ys)) = _
      rw [rustLines_cons_line x hx, ih (fun l hl => h l (List.mem_cons_of_mem _ hl))]
      rw [List.getLast?_cons_cons]
      split
      · rfl
      · rfl


theorem replaceFirstMeta_none {L : List String} {m : String}
    (h : replaceFirstMeta L m = none) : ∀ l ∈ L, isMetaLine l = false := by
  induction L with
  | nil => simp
  | cons x xs ih =>
    intro l hl
    by_cases hx : isMetaLine x = true
    · rw [replaceFirstMeta, if_pos hx] at h
      exact Option.noConfusion h
    · rw [replaceFirstMeta, if_neg hx] at h
      rcases List.mem_cons.mp hl with rfl | hl'
      · cases hix : isMetaLine l
        · rfl
        · exact absurd hix hx
      · cases hr : replaceFirstMeta xs m with
        | none => exact ih hr l hl'
        | some r =>
          rw [hr] at h
          exact Option.noConfusion h

theorem replaceFirstMeta_decomp {L : List String} {m : String} {L' : List String}
    (h : replaceFirstMeta L m = some L') :
    ∃ pre l0 post, L = pre ++ l0 :: post ∧ L' = pre ++ m :: post ∧
      (∀ l ∈ pre, isMetaLine l = false) ∧ isMetaLine l0 = true := by
  induction L generalizing L' with
  | nil => exact Option.noConfusion h
  | cons x xs ih =>
    by_cases hx : isMetaLine x = true
    · rw [replaceFirstMeta, if_pos hx] at h
      refine ⟨[], x, xs, by simp, ?_, by simp, hx⟩
      simpa using (Option.some.injEq _ _ ▸ h).symm
    · rw [replaceFirstMeta, if_neg hx] at h
      cases hr : replaceFirstMeta xs m with
      | none =>
        rw [hr] at h
        exact Option.noConfusion h
      | some r =>
        rw [hr] at h
        obtain ⟨pre, l0, post, h1, h2, h3, h4⟩ := ih hr
        refine ⟨x :: pre, l0, post, by simp [h1], ?_, ?_, h4⟩
        · have hr' : L' = x :: r := by
            simpa using h.symm
          simp [hr', h2]
        · intro l hl
          rcases List.mem_cons.mp hl with rfl | hl'
          · cases hix : isMetaLine l
            · rfl
            · exact absurd hix hx
          · exact h3 l hl'

theorem extractLoop_append_not {pre : List String}
    (h : ∀ l ∈ pre, isMetaLine l = false) (rest : List String) :
    extractLoop (pre ++ rest) = extractLoop rest := by
  induction pre with
  | nil => rfl
  | cons x xs ih =>
    rw [List.cons_append, extractLoop]
    rw [if_neg (by simp [h x (List.mem_cons_self _ _)])]
    exact ih (fun l hl => h l (List.mem_cons_of_mem _ hl))

/-- The injected metadata line satisfies the metadata-line predicate. -/
theorem isMetaLine_metaLine (mid : String) :
    isMetaLine ("<!-- slack_message_id: " ++ mid ++ " -->") = true := by
  unfold isMetaLine rustStartsWith rustEndsWith isSuffixL
  apply Bool.and_eq_true_iff.mpr
  constructor
  · rw [data_append, data_append, List.append_assoc]
    exact isPrefixL_self_append _ _
  · rw [data_append, List.reverse_append]
    exact isPrefixL_self_append _ _

theorem extractLoop_meta_cons (rest : List String) :
    extractLoop (("<!-- slack_message_id: " ++ "123.456" ++ " -->") :: rest) =
      some "123.456" := by
  rw [show ("<!-- slack_message_id: " ++ "123.456" ++ " -->") =
    "<!-- slack_message_id: 123.456 -->" from by decide]
  rw [extractLoop, if_pos (by decide)]
  exact congrArg some (by decide)

theorem metaLine_clean (mid : String) (h : LineClean mid) :
    LineClean ("<!-- slack_message_id: " ++ mid ++ " -->") :=
  lineClean_append (lineClean_append (by decide) h) (by decide)

theorem metaLine_ne_empty (mid : String) :
    ("<!-- slack_message_id: " ++ mid ++ " -->") ≠ "" := by
  intro h
  have h' := congrArg String.data h
  rw [data_append, data_append] at h'
  have := congrArg List.length h'
  simp [List.length_append] at this


theorem findIdx_prefix_false {p : String → Bool} : ∀ (pre : List String),
    (∀ l ∈ pre, p l = false) → ∀ (l0 : String) (post : List String), p l0 = true →
    (pre ++ l0 :: post).findIdx p = pre.length := by
  intro pre
  induction pre with
  | nil =>
    intro _ l0 post hl0
    simp [List.findIdx_cons, hl0]
  | cons x xs ih =>
    intro hpre l0 post hl0
    rw [List.cons_append, List.findIdx_cons, hpre x (List.mem_cons_self _ _)]
    rw [ih (fun l hl => hpre l (List.mem_cons_of_mem _ hl)) l0 post hl0]
    rfl

/-- C9 (amended): for every carriage-return-free document text,
`extract ∘ inject` recovers the injected id `"123.456"`; and injecting into a
carriage-return-free text that contains exactly one metadata line leaves
exactly one metadata line, at the same position, carrying the new id.  (On a
malformed text containing several metadata lines only the first is replaced,
so more than one remains — see the counterexample.) -/
theorem c9_amended :
    (∀ text : String, '\r' ∉ text.data →
      extract_slack_message_id (add_slack_message_id text "123.456") = some "123.456") ∧
    (∀ (text mid : String), '\r' ∉ text.data → LineClean mid →
      (rustLines text).countP isMetaLine = 1 →
      (rustLines (add_slack_message_id text mid)).countP isMetaLine = 1 ∧
      (rustLines (add_slack_message_id text mid)).findIdx isMetaLine =
        (rustLines text).findIdx isMetaLine ∧
      (rustLines (add_slack_message_id text mid))[(rustLines text).findIdx isMetaLine]? =
        some ("<!-- slack_message_id: " ++ mid ++ " -->")) := by
  constructor
  · intro text hr
    simp only [extract_slack_message_id, add_slack_message_id]
    cases hrep : replaceFirstMeta (rustLines text)
        ("<!-- slack_message_id: " ++ "123.456" ++ " -->") with
    | none =>
      show extractLoop (rustLines (("<!-- slack_message_id: " ++ "123.456" ++ " -->")
        ++ "\n" ++ text)) = some "123.456"
      rw [rustLines_cons_line _ (metaLine_clean "123.456" (by decide))]
      exact extractLoop_meta_cons _
    | some L' =>
      show extractLoop (rustLines (strIntercalate "\n" L')) = some "123.456"
      obtain ⟨pre, l0, post, hL, hL', hpre, hl0⟩ := replaceFirstMeta_decomp hrep
      have hpresub : ∀ l ∈ pre, LineClean l := by
        intro l hl
        refine rustLines_clean hr l ?_
        rw [hL]
        exact List.mem_append.mpr (Or.inl hl)
      have hpostsub : ∀ l ∈ post, LineClean l := by
        intro l hl
        refine rustLines_clean hr l ?_
        rw [hL]
        exact List.mem_append.mpr (Or.inr (List.mem_cons_of_mem _ hl))
      have hclean : ∀ l ∈ L', LineClean l := by
        intro l hl
        rw [hL'] at hl
        rcases List.mem_append.mp hl with hl' | hl'
        · exact hpresub l hl'
        · rcases List.mem_cons.mp hl' with rfl | hl''
          · exact metaLine_clean "123.456" (by decide)
          · exact hpostsub l hl''
      rw [rustLines_intercalate L' hclean]
      split
      · next hlast =>
        rw [hL'] at hlast ⊢
        cases post with
        | nil =>
          exfalso
          rw [List.getLast?_append] at hlast
          simp only [List.getLast?_singleton, Option.or_some, Option.or] at hlast
          exact metaLine_ne_empty "123.456" (by simpa using hlast)
        | cons q qs =>
          rw [List.dropLast_append_of_ne_nil _ (by simp)]
          rw [extractLoop_append_not hpre]
          exact extractLoop_meta_cons _
      · rw [hL', extractLoop_append_not hpre]
        exact extractLoop_meta_cons _
  · intro text mid hr hmid hcount
    simp only [add_slack_message_id]
    cases hrep : replaceFirstMeta (rustLines text)
        ("<!-- slack_message_id: " ++ mid ++ " -->") with
    | none =>
      exfalso
      have h0 : (rustLines text).countP isMetaLine = 0 :=
        List.countP_eq_zero.mpr (fun l hl => by simp [replaceFirstMeta_none hrep l hl])
      rw [h0] at hcount
      exact Nat.noConfusion hcount
    | some L' =>
      show (rustLines (strIntercalate "\n" L')).countP isMetaLine = 1 ∧
        (rustLines (strIntercalate "\n" L')).findIdx isMetaLine =
          (rustLines text).findIdx isMetaLine ∧
        (rustLines (strIntercalate "\n" L'))[(rustLines text).findIdx isMetaLine]? =
          some ("<!-- slack_message_id: " ++ mid ++ " -->")
      obtain ⟨pre, l0, post, hL, hL', hpre, hl0⟩ := replaceFirstMeta_decomp hrep
      have hpre0 : pre.countP isMetaLine = 0 :=
        List.countP_eq_zero.mpr (fun l hl => by simp [hpre l hl])
      have hpost0 : post.countP isMetaLine = 0 := by
        rw [hL, List.countP_append, hpre0, List.countP_cons_of_pos _ _ hl0] at hcount
        omega
      have hpresub : ∀ l ∈ pre, LineClean l := by
        intro l hl
        refine rustLines_clean hr l ?_
        rw [hL]
        exact List.mem_append.mpr (Or.inl hl)
      have hpostsub : ∀ l ∈ post, LineClean l := by
        intro l hl
        refine rustLines_clean hr l ?_
        rw [hL]
        exact List.mem_append.mpr (Or.inr (List.mem_cons_of_mem _ hl))
      have hclean : ∀ l ∈ L', LineClean l := by
        intro l hl
        rw [hL'] at hl
        rcases List.mem_append.mp hl with hl' | hl'
        · exact hpresub l hl'
        · rcases List.mem_cons.mp hl' with rfl | hl''
          · exact metaLine_clean mid hmid
          · exact hpostsub l hl''
      have hidx : (rustLines text).findIdx isMetaLine = pre.length := by
        rw [hL]
        exact findIdx_prefix_false pre hpre l0 post hl0
      rw [rustLines_intercalate L' hclean, hidx]
      have hfinish : ∀ post' : List String, post'.countP isMetaLine = 0 →
          (pre ++ ("<!-- slack_message_id: " ++ mid ++ " -->") :: post').countP
            isMetaLine = 1 ∧
          (pre ++ ("<!-- slack_message_id: " ++ mid ++ " -->") :: post').findIdx
            isMetaLine = pre.length ∧
          (pre ++ ("<!-- slack_message_id: " ++ mid ++ " -->") :: post')[pre.length]? =
            some ("<!-- slack_message_id: " ++ mid ++ " -->") := by
        intro post' hp0
        refine ⟨?_, ?_, ?_⟩
        · rw [List.countP_append, hpre0,
            List.countP_cons_of_pos _ _ (isMetaLine_metaLine mid), hp0]
        · exact findIdx_prefix_false pre hpre _ post' (isMetaLine_metaLine mid)
        · rw [List.getElem?_append_right (le_refl pre.length)]
          simp
      split
      · next hlast =>
        rw [hL'] at hlast ⊢
        cases post with
        | nil =>
          exfalso
          rw [List.getLast?_append] at hlast
          simp only [List.getLast?_singleton, Option.or_some, Option.or] at hlast
          exact metaLine_ne_empty mid (by simpa using hlast)
        | cons q qs =>
          rw [List.dropLast_append_of_ne_nil _ (by simp)]
          refine hfinish ((q :: qs).dropLast) ?_
          refine List.countP_eq_zero.mpr ?_
          intro l hl
          have hl' : l ∈ q :: qs := List.dropLast_subset _ hl
          have := List.countP_eq_zero.mp hpost0 l hl'
          exact this
      · rw [hL']
        exact hfinish post hpost0

/-- C9 witness. -/
theorem c9_amended_witness :
    ('\r' ∉ "## Active Todos\n\n- [ ] x\n".data ∧
      extract_slack_message_id
        (add_slack_message_id "## Active Todos\n\n- [ ] x\n" "123.456") =
          some "123.456") ∧
    ('\r' ∉ "<!-- slack_message_id: 1.1 -->\nbody".data ∧ LineClean "9.9" ∧
      (rustLines "<!-- slack_message_id: 1.1 -->\nbody").countP isMetaLine = 1 ∧
      (rustLines (add_slack_message_id "<!-- slack_message_id: 1.1 -->\nbody"
        "9.9")).countP isMetaLine = 1) :=
  ⟨⟨by decide, c9_amended.1 "## Active Todos\n\n- [ ] x\n" (by decide)⟩,
    ⟨by decide, by decide, by decide,
      (c9_amended.2 "<!-- slack_message_id: 1.1 -->\nbody" "9.9" (by decide) (by decide)
        (by decide)).1⟩⟩


/-! ## Claim C2: the annotation never repeats across cycles -/

/-- Head of a character list is present and not whitespace. -/
def headNotWS : List Char → Bool
  | [] => false
  | c :: _ => !wsChar c

/-- A fully well-formed entry text: an `EntryClean` text that additionally
starts and ends with a non-whitespace character (so trimming never alters
it), as every real task text does. -/
def TextClean (s : String) : Prop :=
  EntryClean s ∧ headNotWS s.data = true ∧ headNotWS s.data.reverse = true

instance : DecidablePred TextClean := fun s => by unfold TextClean; infer_instance

theorem mk_data (s : String) : (⟨s.data⟩ : String) = s := by cases s; rfl

theorem headNotWS_append_left {a : List Char} (b : List Char) (h : headNotWS a = true) :
    headNotWS (a ++ b) = true := by
  cases a with
  | nil => exact Bool.noConfusion h
  | cons c t => exact h

theorem dropWhile_ws_of_head {l : List Char} (h : headNotWS l = true) :
    l.dropWhile wsChar = l := by
  cases l with
  | nil => rfl
  | cons c t =>
    have hc : wsChar c = false := by
      have h' : (!wsChar c) = true := h
      simpa using h'
    simp [List.dropWhile_cons, hc]

theorem trimL_noop {l : List Char} (h1 : headNotWS l = true)
    (h2 : headNotWS l.reverse = true) : trimL l = l := by
  unfold trimL
  rw [dropWhile_ws_of_head h1, dropWhile_ws_of_head h2, List.reverse_reverse]

theorem not_isPrefixL_of_getQ {p l : List Char} {k : Nat} {a b : Char}
    (hp : p[k]? = some a) (hl : l[k]? = some b) (hab : a ≠ b) : isPrefixL p l = false := by
  cases h : isPrefixL p l
  · rfl
  · exfalso
    obtain ⟨r, hr⟩ := (isPrefixL_iff p l).mp h
    have hk : k < p.length := by
      rcases List.getElem?_eq_some.mp hp with ⟨hlt, -⟩
      exact hlt
    rw [hr, List.getElem?_append_left hk, hp] at hl
    exact hab (Option.some.inj hl)

theorem ne_of_getQ {A B : String} {k : Nat} {a b : Char} (hA : A.data[k]? = some a)
    (hB : B.data[k]? = some b) (hab : a ≠ b) : A ≠ B := by
  intro h
  rw [h, hB] at hA
  exact hab (Option.some.inj hA).symm

theorem rustTrim_append_text {p c : String} (hp : headNotWS p.data = true)
    (hc : headNotWS c.data.reverse = true) : rustTrim (p ++ c) = p ++ c := by
  unfold rustTrim
  rw [show (p ++ c).data = p.data ++ c.data from rfl]
  rw [trimL_noop (headNotWS_append_left _ hp) ?hrev]
  case hrev =>
    rw [List.reverse_append]
    exact headNotWS_append_left _ hc
  exact strExt rfl

theorem rustTrim_fmtActive {c : String} (h : TextClean c) :
    rustTrim (fmtActiveLine c) = fmtActiveLine c :=
  rustTrim_append_text (by decide) h.2.2

theorem rustTrim_fmtDone {c : String} (h : TextClean c) :
    rustTrim (fmtDoneLine c) = fmtDoneLine c :=
  rustTrim_append_text (by decide) h.2.2

theorem rustTrim_fmtFinished {c : String} (h : TextClean c) :
    rustTrim (fmtFinishedLine c) = fmtFinishedLine c := by
  unfold fmtFinishedLine
  rw [strAppend_assoc]
  refine rustTrim_append_text (by decide) ?_
  rw [show (c ++ " *(marked as finished)*").data =
    c.data ++ " *(marked as finished)*".data from rfl, List.reverse_append]
  exact headNotWS_append_left _ (by decide)

theorem startsWith_fmtActive_blank (c : String) :
    rustStartsWith (fmtActiveLine c) "- [ ]" = true := by
  unfold rustStartsWith
  rw [fmtActiveLine_data,
    show ("- [ ] " : String).data = ("- [ ]" : String).data ++ [' '] from by decide,
    List.append_assoc]
  exact isPrefixL_self_append _ _

theorem startsWith_fmtDone_blank (c : String) :
    rustStartsWith (fmtDoneLine c) "- [ ]" = false := by
  unfold rustStartsWith
  refine not_isPrefixL_of_getQ (k := 3) (a := ' ') (b := 'x') (by decide) ?_ (by decide)
  rw [fmtDoneLine_data, getQ_done _ 3 (by omega)]
  decide

theorem startsWith_fmtDone_x (c : String) :
    rustStartsWith (fmtDoneLine c) "- [x]" = true := by
  unfold rustStartsWith
  rw [fmtDoneLine_data,
    show ("- [x] " : String).data = ("- [x]" : String).data ++ [' '] from by decide,
    List.append_assoc]
  exact isPrefixL_self_append _ _

theorem startsWith_fmtFinished_blank (c : String) :
    rustStartsWith (fmtFinishedLine c) "- [ ]" = false := by
  unfold rustStartsWith
  refine not_isPrefixL_of_getQ (k := 3) (a := ' ') (b := 'x') (by decide) ?_ (by decide)
  rw [fmtFinishedLine_data, getQ_done _ 3 (by omega)]
  decide

theorem startsWith_fmtFinished_x (c : String) :
    rustStartsWith (fmtFinishedLine c) "- [x]" = true := by
  unfold rustStartsWith
  rw [fmtFinishedLine_data,
    show ("- [x] " : String).data = ("- [x]" : String).data ++ [' '] from by decide,
    List.append_assoc]
  exact isPrefixL_self_append _ _

theorem charDrop_fmtActive (c : String) : charDrop (fmtActiveLine c) 5 = ⟨' ' :: c.data⟩ := by
  unfold charDrop
  rw [fmtActiveLine_data,
    show ("- [ ] " : String).data = ['-', ' ', '[', ' ', ']', ' '] from by decide]
  rfl

theorem charDrop_fmtDone (c : String) : charDrop (fmtDoneLine c) 5 = ⟨' ' :: c.data⟩ := by
  unfold charDrop
  rw [fmtDoneLine_data,
    show ("- [x] " : String).data = ['-', ' ', '[', 'x', ']', ' '] from by decide]
  rfl

theorem charDrop_fmtFinished (c : String) :
    charDrop (fmtFinishedLine c) 5 =
      ⟨' ' :: (c.data ++ " *(marked as finished)*".data)⟩ := by
  unfold charDrop
  rw [fmtFinishedLine_data,
    show ("- [x] " : String).data = ['-', ' ', '[', 'x', ']', ' '] from by decide]
  rfl

theorem trim_space_cons {l : List Char} (h1 : headNotWS l = true)
    (h2 : headNotWS l.reverse = true) : rustTrim ⟨' ' :: l⟩ = ⟨l⟩ := by
  unfold rustTrim
  show (⟨trimL (' ' :: l)⟩ : String) = _
  unfold trimL
  rw [List.dropWhile_cons]
  rw [if_pos (by decide : wsChar ' ' = true)]
  rw [dropWhile_ws_of_head h1, dropWhile_ws_of_head h2, List.reverse_reverse]


theorem trimEndGo_no_suffix {fuel : Nat} {l pat : List Char}
    (h : isSuffixL pat l = false) : trimEndMatchesGo fuel l pat = l := by
  cases fuel with
  | zero => rfl
  | succ n =>
    rw [trimEndMatchesGo, if_neg]
    simp [h]

theorem trimEndGo_step {fuel : Nat} {l pat : List Char} (hp : pat.isEmpty = false)
    (hs : isSuffixL pat l = true) :
    trimEndMatchesGo (fuel + 1) l pat = trimEndMatchesGo fuel (dropSuffixL l pat) pat := by
  rw [trimEndMatchesGo, if_pos]
  simp [hp, hs]

theorem annot_not_suffix_space (x : List Char) :
    isSuffixL ("*(marked as finished)*" : String).data (x ++ [' ']) = false := by
  unfold isSuffixL
  rw [List.reverse_append, show ([' '] : List Char).reverse = [' '] from rfl]
  refine not_isPrefixL_of_getQ (k := 0) (a := '*') (b := ' ') (by decide) ?_ (by decide)
  rw [List.getElem?_append_left (by decide : (0 : Nat) < ([' '] : List Char).length)]
  rfl

/-- Rust `trim_end_matches` on an annotated text strips exactly the one
marker occurrence, leaving the separating space. -/
theorem rustTrimEndMatches_annot (c : String) :
    rustTrimEndMatches (c ++ " *(marked as finished)*") "*(marked as finished)*" =
      ⟨c.data ++ [' ']⟩ := by
  unfold rustTrimEndMatches
  rw [show (c ++ " *(marked as finished)*").data =
    c.data ++ (" *(marked as finished)*" : String).data from rfl]
  rw [show (c.data ++ (" *(marked as finished)*" : String).data).length =
    (c.data.length + 22) + 1 from by
      simp [List.length_append,
        show (" *(marked as finished)*" : String).data.length = 23 from by decide]]
  rw [trimEndGo_step (by decide) ?hsuf]
  case hsuf =>
    have h := endsWith_annot c
    unfold rustEndsWith at h
    exact h
  rw [show dropSuffixL (c.data ++ (" *(marked as finished)*" : String).data)
      ("*(marked as finished)*" : String).data = c.data ++ [' '] from ?hdrop]
  case hdrop =>
    unfold dropSuffixL
    rw [List.take_append_eq_append_take]
    rw [show (c.data ++ (" *(marked as finished)*" : String).data).length -
        ("*(marked as finished)*" : String).data.length = c.data.length + 1 from by
      simp [List.length_append,
        show (" *(marked as finished)*" : String).data.length = 23 from by decide,
        show ("*(marked as finished)*" : String).data.length = 22 from by decide]]
    rw [List.take_of_length_le (by omega)]
    congr 1
    rw [show c.data.length + 1 - c.data.length = 1 from by omega]
    decide
  rw [trimEndGo_no_suffix (annot_not_suffix_space c.data)]

theorem trim_trailing_space {c : String} (h1 : headNotWS c.data = true)
    (h2 : headNotWS c.data.reverse = true) : rustTrim ⟨c.data ++ [' ']⟩ = c := by
  unfold rustTrim
  show (⟨trimL (c.data ++ [' '])⟩ : String) = c
  unfold trimL
  rw [dropWhile_ws_of_head (headNotWS_append_left _ h1), List.reverse_append,
    show ([' '] : List Char).reverse = [' '] from rfl, List.singleton_append,
    List.dropWhile_cons, if_pos (by decide : wsChar ' ' = true),
    dropWhile_ws_of_head h2, List.reverse_reverse]

theorem trim_space_str {c : String} (h1 : headNotWS c.data = true)
    (h2 : headNotWS c.data.reverse = true) : rustTrim ⟨' ' :: c.data⟩ = c := by
  rw [trim_space_cons h1 h2]

theorem lineEntries_fmtActive {c : String} (h : TextClean c) :
    lineEntries (fmtActiveLine c) = [(c, false)] := by
  simp only [lineEntries, rustTrim_fmtActive h, startsWith_fmtActive_blank, if_true,
    charDrop_fmtActive, trim_space_str h.2.1 h.2.2]

theorem lineEntries_fmtDone {c : String} (h : TextClean c) :
    lineEntries (fmtDoneLine c) = [(c, true)] := by
  simp only [lineEntries, rustTrim_fmtDone h, startsWith_fmtDone_blank,
    startsWith_fmtDone_x, Bool.false_eq_true, if_false, if_true, charDrop_fmtDone,
    trim_space_str h.2.1 h.2.2, h.1.2]

theorem lineEntries_fmtFinished {c : String} (h : TextClean c) :
    lineEntries (fmtFinishedLine c) = [(c, true)] := by
  have hmid : rustTrim ⟨' ' :: (c.data ++ (" *(marked as finished)*" : String).data)⟩ =
      c ++ " *(marked as finished)*" := by
    have h1 : headNotWS (c.data ++ (" *(marked as finished)*" : String).data) = true :=
      headNotWS_append_left _ h.2.1
    have h2 : headNotWS (c.data ++
        (" *(marked as finished)*" : String).data).reverse = true := by
      rw [List.reverse_append]
      exact headNotWS_append_left _ (by decide)
    have ht := trim_space_cons h1 h2
    rw [ht]
    rfl
  simp only [lineEntries, rustTrim_fmtFinished h, startsWith_fmtFinished_blank,
    startsWith_fmtFinished_x, Bool.false_eq_true, if_false, if_true,
    charDrop_fmtFinished, hmid, endsWith_annot, rustTrimEndMatches_annot c,
    trim_trailing_space h.2.1 h.2.2]


theorem entriesOfLines_append (a b : List String) :
    entriesOfLines (a ++ b) = entriesOfLines a ++ entriesOfLines b := by
  induction a with
  | nil => rfl
  | cons x xs ih => simp [entriesOfLines, ih]

theorem entriesOfLines_active_map {l : List Todo} (h : ∀ t ∈ l, TextClean t.content) :
    entriesOfLines (l.map (fun t => fmtActiveLine t.content)) =
      l.map (fun t => (t.content, false)) := by
  induction l with
  | nil => rfl
  | cons t ts ih =>
    simp only [List.map_cons, entriesOfLines,
      lineEntries_fmtActive (h t (List.mem_cons_self _ _)),
      ih (fun x hx => h x (List.mem_cons_of_mem _ hx))]
    rfl

theorem entriesOfLines_done_map {l : List Todo} (h : ∀ t ∈ l, TextClean t.content) :
    entriesOfLines (l.map (fun t => fmtDoneLine t.content)) =
      l.map (fun t => (t.content, true)) := by
  induction l with
  | nil => rfl
  | cons t ts ih =>
    simp only [List.map_cons, entriesOfLines,
      lineEntries_fmtDone (h t (List.mem_cons_self _ _)),
      ih (fun x hx => h x (List.mem_cons_of_mem _ hx))]
    rfl

theorem entriesOfLines_prior_map {E : List (String × Bool)} (h : ∀ e ∈ E, TextClean e.1) :
    entriesOfLines (E.map priorLine) = E.map (fun e => (e.1, true)) := by
  induction E with
  | nil => rfl
  | cons e es ih =>
    obtain ⟨t, b⟩ := e
    have ht : TextClean t := h (t, b) (List.mem_cons_self _ _)
    cases b
    · simp only [List.map_cons, entriesOfLines, priorLine, lineEntries_fmtDone ht,
        ih (fun x hx => h x (List.mem_cons_of_mem _ hx))]
      rfl
    · simp only [List.map_cons, entriesOfLines, priorLine, lineEntries_fmtFinished ht,
        ih (fun x hx => h x (List.mem_cons_of_mem _ hx))]
      rfl

theorem fmtActive_trim_ne {c : String} (h : TextClean c) :
    rustTrim (fmtActiveLine c) ≠ "---" := by
  rw [rustTrim_fmtActive h]
  refine ne_of_getQ (k := 1) (a := ' ') (b := '-') ?_ (by decide) (by decide)
  rw [fmtActiveLine_data, getQ_active _ 1 (by omega)]
  decide

theorem fmtDone_trim_ne {c : String} (h : TextClean c) :
    rustTrim (fmtDoneLine c) ≠ "---" := by
  rw [rustTrim_fmtDone h]
  refine ne_of_getQ (k := 1) (a := ' ') (b := '-') ?_ (by decide) (by decide)
  rw [fmtDoneLine_data, getQ_done _ 1 (by omega)]
  decide

theorem fmtFinished_trim_ne {c : String} (h : TextClean c) :
    rustTrim (fmtFinishedLine c) ≠ "---" := by
  rw [rustTrim_fmtFinished h]
  refine ne_of_getQ (k := 1) (a := ' ') (b := '-') ?_ (by decide) (by decide)
  rw [fmtFinishedLine_data, getQ_done _ 1 (by omega)]
  decide

theorem renderedLines_nodelim {current : List Todo} {existing : List (String × Bool)}
    (hc : ∀ t ∈ current, TextClean t.content) (he : ∀ p ∈ existing, TextClean p.1) :
    ∀ l ∈ renderedLines current existing, rustTrim l ≠ "---" := by
  intro l hl
  rcases mem_renderedLines_cases hl with h | h | h | h | h | h | h | h
  · subst h; decide
  · subst h; decide
  · subst h; decide
  · subst h; decide
  · subst h; decide
  · obtain ⟨t, htm, -, rfl⟩ := h
    exact fmtActive_trim_ne (hc t htm)
  · obtain ⟨t, htm, -, rfl⟩ := h
    exact fmtDone_trim_ne (hc t htm)
  · obtain ⟨e, hem, rfl⟩ := h
    obtain ⟨t, b⟩ := e
    have ht : TextClean t := by
      rcases priorEmit_mem hem with ⟨-, hmem⟩ | ⟨-, hmem, -⟩
      · exact he (t, true) hmem
      · exact he (t, false) hmem
    cases b
    · exact fmtDone_trim_ne ht
    · exact fmtFinished_trim_ne ht

theorem parseLoop_all (L : List String) (h : ∀ l ∈ L, rustTrim l ≠ "---")
    (td : List (String × Bool)) (nt : List String) :
    parseLoop L td false nt = (td ++ entriesOfLines L, nt) := by
  have h' := parseLoop_entries L h [] td nt
  rw [List.append_nil] at h'
  rw [h']
  rfl

/-- Parsing the rendered document (no id, no tail) recovers: the active
fetched todos as active entries, then the completed fetched todos and every
emitted prior entry — the latter with the annotation stripped — as completed
entries, in rendering order, and no tail. -/
theorem parse_rendered (current : List Todo) (existing : List (String × Bool))
    (hc : ∀ t ∈ current, TextClean t.content) (he : ∀ p ∈ existing, TextClean p.1) :
    parse_existing_markdown (generate_markdown_content current existing none none) =
      ((current.filter (fun t => !t.checked)).map (fun t => (t.content, false))
        ++ ((current.filter (fun t => t.checked)).map (fun t => (t.content, true))
        ++ (priorEmit (current.map (·.content)) existing
            (((current.filter (fun t => t.checked)).map (·.content)).reverse)).map
              (fun e => (e.1, true))), none) := by
  unfold parse_existing_markdown
  rw [rustLines_generate_none current existing (fun t ht => (hc t ht).1.1)
    (fun p hp => (he p hp).1.1)]
  rw [parseLoop_all _ (renderedLines_nodelim hc he)]
  have hprior : ∀ e ∈ priorEmit (current.map (·.content)) existing
      (((current.filter (fun t => t.checked)).map (·.content)).reverse), TextClean e.1 := by
    intro e hem
    rcases priorEmit_mem hem with ⟨-, hmem⟩ | ⟨-, hmem, -⟩
    · exact he (e.1, true) hmem
    · exact he (e.1, false) hmem
  have hact : entriesOfLines (activeLines current) =
      (current.filter (fun t => !t.checked)).map (fun t => (t.content, false)) := by
    simp only [activeLines]
    split
    · next ha =>
      have hf : current.filter (fun t => !t.checked) = [] := by simpa using ha
      rw [hf, List.map_nil]
      decide
    · exact entriesOfLines_active_map
        (fun t ht => hc t (List.mem_of_mem_filter ht))
  have hcomp : entriesOfLines (completedLines current existing) =
      (current.filter (fun t => t.checked)).map (fun t => (t.content, true))
        ++ (priorEmit (current.map (·.content)) existing
            (((current.filter (fun t => t.checked)).map (·.content)).reverse)).map
              (fun e => (e.1, true)) := by
    unfold completedLines
    rw [entriesOfLines_append,
      entriesOfLines_done_map (fun t ht => hc t (List.mem_of_mem_filter ht)),
      entriesOfLines_prior_map hprior]
  have hph : entriesOfLines (if (completedLines current existing).isEmpty = true
      then ["_No completed todos yet._", ""] else []) = [] := by
    split
    · decide
    · rfl
  unfold renderedLines
  rw [entriesOfLines_append, entriesOfLines_append, entriesOfLines_append,
    entriesOfLines_append, hact, hcomp, hph]
  rw [show entriesOfLines ["## Active Todos", ""] = [] from by decide,
    show entriesOfLines ["", "## Completed Todos", ""] = [] from by decide]
  simp


theorem completedLines_sub {current : List Todo} {existing : List (String × Bool)}
    {l : String} (h : l ∈ completedLines current existing) :
    l ∈ renderedLines current existing := by
  unfold renderedLines
  exact List.mem_append.mpr (Or.inl (List.mem_append.mpr (Or.inr h)))

theorem containsStr_added_false {current : List Todo} {T : String}
    (h : T ∉ current.map (·.content)) :
    containsStr (((current.filter (fun t => t.checked)).map (·.content)).reverse) T
      = false := by
  rw [containsStr_eq_false_iff]
  intro hmem
  rw [List.mem_reverse] at hmem
  rcases List.mem_map.mp hmem with ⟨t, ht, heq⟩
  exact h (List.mem_map.mpr ⟨t, List.mem_of_mem_filter ht, heq⟩)

end Slaist
